import Mathlib

/-!
# Boat management: record store and billing

A verification development for `boatManagement.c`.

Conventions of the embedding.

* A C `char` is modelled by its code, a positive natural number: the terminating
  NUL is not a character of a string, so a C string is the list of the
  characters that stand before its terminator.
* A C `float` is modelled by a rational number and its arithmetic is exact;
  rounding is outside the model. The infinities and NaN are values of `CFloat`:
  the operations that change or keep what is owed are stated over `CFloat` as
  well, and agree with the rational ones on numbers.
* `Boat* boats[MAX_BOATS]` is a list of slots, `none` for a `NULL` slot. The loops
  `for (i = 0; i < MAX_BOATS; i++)` run over the slots from index `0` upwards;
  the array of the program has `MAX_BOATS` slots.
* What a function prints is modelled by the value it returns next to the store.
* A text longer than the buffer that receives it (`name[128]`, `type[20]`,
  `trailerTag[20]`) overflows the buffer in C; the model keeps the whole text, and
  such inputs are outside it.
* A file is the list of its bytes. Whether `fopen` succeeds is an input of
  `loadData` and `saveData`; `malloc` is taken to succeed.
-/

namespace BoatManagement

/-! ## Characters and strings -/

/-- A character of a C string: a code other than the terminator `0`. -/
abbrev CChar := { n : Nat // 0 < n }

/-- A C string: its characters up to the terminator. -/
abbrev CString := List CChar

/-- The character with the code of `c`, if `c` is not NUL. -/
def CChar.ofChar? (c : Char) : Option CChar :=
  if h : 0 < c.toNat then some ⟨c.toNat, h⟩ else none

/-- The C string literal with the characters of `s`. -/
def cstr (s : String) : CString := s.toList.filterMap CChar.ofChar?

/-- Function `tolower` of the C locale: the codes 65..90 of the capital letters go
to the codes 97..122 of the small ones. -/
def tolower (c : Nat) : Nat := if 65 ≤ c ∧ c ≤ 90 then c + 32 else c

/-- Function `strcmp`: difference of the first pair of characters that differ, the
terminator counting as `0`. -/
def strcmp : CString → CString → Int
  | [], [] => 0
  | [], y :: _ => 0 - (y.val : Int)
  | x :: _, [] => (x.val : Int) - 0
  | x :: xs, y :: ys => if x.val = y.val then strcmp xs ys else (x.val : Int) - (y.val : Int)

/-- Function `strcasecmp`: as `strcmp` on the lower-cased characters. -/
def strcasecmp : CString → CString → Int
  | [], [] => 0
  | [], y :: _ => 0 - (tolower y.val : Int)
  | x :: _, [] => (tolower x.val : Int) - 0
  | x :: xs, y :: ys =>
    if tolower x.val = tolower y.val then strcasecmp xs ys
    else (tolower x.val : Int) - (tolower y.val : Int)

/-! ## Data model -/

def MAX_BOATS : Nat := 120

inductive BoatType where
  | SLIP
  | LAND
  | TRAILER
  | STORAGE
  | NO_PLACE
  deriving DecidableEq, Repr

/-- The members of `union ExtraInfo`, kept side by side: the program reads only
the member it wrote last for the record's type, so the sharing of storage
between the members is not modelled. -/
structure ExtraInfo where
  slipNum : Int
  bayLetter : Nat
  trailerTag : CString
  storageNumber : Int
  deriving DecidableEq

structure Boat where
  name : CString
  length : ℚ
  type : BoatType
  info : ExtraInfo
  amountOwed : ℚ
  deriving DecidableEq

/-- The storage location of the specification's data model: the kind of a record
together with the one payload that belongs to the kind. -/
inductive StorageLocation where
  | Slip (slipNum : Int)
  | Land (bayLetter : Nat)
  | Trailer (trailerTag : CString)
  | Storage (storageNumber : Int)
  | Unknown
  deriving DecidableEq

/-- The location a record stands for: its type and the union member of that type. -/
def Boat.location (b : Boat) : StorageLocation :=
  match b.type with
  | BoatType.SLIP => StorageLocation.Slip b.info.slipNum
  | BoatType.LAND => StorageLocation.Land b.info.bayLetter
  | BoatType.TRAILER => StorageLocation.Trailer b.info.trailerTag
  | BoatType.STORAGE => StorageLocation.Storage b.info.storageNumber
  | BoatType.NO_PLACE => StorageLocation.Unknown

/-- The live records of a store, in slot order. -/
def liveBoats (boats : List (Option Boat)) : List Boat := boats.filterMap id

/-- The number of live records of a store. -/
def liveCount (boats : List (Option Boat)) : Nat := (liveBoats boats).length

/-- The store `Boat* boats[MAX_BOATS] = {NULL}` of `main`. -/
def emptyStore : List (Option Boat) := List.replicate MAX_BOATS none

/-! ## Type names -/

/-- Function `getBoatType`: string to `BoatType`. -/
def getBoatType (typeStr : CString) : BoatType :=
  if strcmp typeStr (cstr "slip") = 0 then BoatType.SLIP
  else if strcmp typeStr (cstr "land") = 0 then BoatType.LAND
  else if strcmp typeStr (cstr "trailer") = 0 then BoatType.TRAILER
  else if strcmp typeStr (cstr "storage") = 0 then BoatType.STORAGE
  else BoatType.NO_PLACE

/-- Function `getBoatTypeStr`: `BoatType` to string. -/
def getBoatTypeStr : BoatType → CString
  | BoatType.SLIP => cstr "slip"
  | BoatType.LAND => cstr "land"
  | BoatType.TRAILER => cstr "trailer"
  | BoatType.STORAGE => cstr "storage"
  | BoatType.NO_PLACE => cstr "unknown"

/-! ## The conversions of `sscanf` and `fprintf` that the program uses -/

/-- Function `isspace` of the C locale. -/
def isspace (c : CChar) : Bool := c.val = 32 || (9 ≤ c.val && c.val ≤ 13)

/-- Function `isdigit`. -/
def isdigit (c : CChar) : Bool := 48 ≤ c.val && c.val ≤ 57

/-- The characters other than the comma, the scanset of `%[^,]`. -/
def notComma (c : CChar) : Bool := c.val != 44

/-- The value of a run of decimal digits. -/
def digitsValue (ds : CString) : Nat := ds.foldl (fun v c => 10 * v + (c.val - 48)) 0

/-- The conversion `%[^,]`: the longest run of characters other than the comma;
it fails on an empty run. Returns the run and the rest of the input. -/
def scanSet (s : CString) : Option (CString × CString) :=
  match s.span notComma with
  | ([], _) => none
  | (field, rest) => some (field, rest)

/-- The directive `,` of a format: the next character must be a comma. -/
def scanComma : CString → Option CString
  | [] => none
  | c :: rest => if c.val = 44 then some rest else none

/-- An optional sign: whether it is a minus, and the rest of the input. -/
def scanSign : CString → Bool × CString
  | [] => (false, [])
  | c :: rest =>
    if c.val = 45 then (true, rest)
    else if c.val = 43 then (false, rest)
    else (false, c :: rest)

/-- The conversion `%d`: white space, an optional sign, decimal digits. -/
def scanInt (s : CString) : Option (Int × CString) :=
  match scanSign (s.dropWhile isspace) with
  | (neg, s1) =>
    match s1.span isdigit with
    | ([], _) => none
    | (ds, rest) =>
      some (if neg then -(digitsValue ds : Int) else (digitsValue ds : Int), rest)

/-- The optional exponent of a decimal floating constant: `none` when an `e` is
not followed by digits (the item is then no number), otherwise whether the
exponent is negative, its magnitude and the rest of the input. -/
def scanExponent : CString → Option (Bool × Nat × CString)
  | [] => some (false, 0, [])
  | c :: rest =>
    if c.val = 101 ∨ c.val = 69 then
      match scanSign rest with
      | (neg, s1) =>
        match s1.span isdigit with
        | ([], _) => none
        | (ds, rest1) => some (neg, digitsValue ds, rest1)
    else some (false, 0, c :: rest)

/-- The conversion `%f` on a decimal constant: white space, an optional sign,
digits with an optional fraction, an optional exponent. The value is exact.
Hexadecimal constants and the spellings of infinity and NaN are not modelled. -/
def scanFloat (s : CString) : Option (ℚ × CString) :=
  match scanSign (s.dropWhile isspace) with
  | (neg, s1) =>
    match s1.span isdigit with
    | (ip, s2) =>
      let fr : CString × CString :=
        match s2 with
        | [] => ([], [])
        | c :: rest => if c.val = 46 then rest.span isdigit else ([], c :: rest)
      if ip = [] ∧ fr.1 = [] then none
      else
        match scanExponent fr.2 with
        | none => none
        | some (eneg, e, rest) =>
          let m : ℚ := (digitsValue ip : ℚ) + (digitsValue fr.1 : ℚ) / (10 : ℚ) ^ fr.1.length
          let v : ℚ := if eneg then m / (10 : ℚ) ^ e else m * (10 : ℚ) ^ e
          some (if neg then -v else v, rest)

/-- The digit character of `d % 10`. -/
def digitChar (d : Nat) : CChar := ⟨48 + d % 10, by omega⟩

/-- The decimal digits of `n`, most significant first, before `acc`. -/
def natDigits : Nat → Nat → CString → CString
  | 0, _, acc => acc
  | fuel + 1, n, acc =>
    if n < 10 then digitChar n :: acc
    else natDigits fuel (n / 10) (digitChar n :: acc)

/-- The output of `%d`. -/
def printInt (n : Int) : CString :=
  if n < 0 then ⟨45, by decide⟩ :: natDigits (n.natAbs + 1) n.natAbs []
  else natDigits (n.natAbs + 1) n.natAbs []

/-! ## Reading a record -/

/-- The call `sscanf(csvData, "%[^,],%f,%[^,],%[^,],%f", boat->name, &boat->length, type,
boat->info.trailerTag, &boat->amountOwed)`: the conversions are made in order up
to the first that fails, and an object whose conversion was not made keeps the
value it had. Returns the record and the buffer `type`. -/
def sscanfBoat (csvData : CString) (boat : Boat) (type : CString) : Boat × CString :=
  match scanSet csvData with
  | none => (boat, type)
  | some (name, s1) =>
    let boat1 := { boat with name := name }
    match scanComma s1 with
    | none => (boat1, type)
    | some s2 =>
      match scanFloat s2 with
      | none => (boat1, type)
      | some (length, s3) =>
        let boat2 := { boat1 with length := length }
        match scanComma s3 with
        | none => (boat2, type)
        | some s4 =>
          match scanSet s4 with
          | none => (boat2, type)
          | some (type1, s5) =>
            match scanComma s5 with
            | none => (boat2, type1)
            | some s6 =>
              match scanSet s6 with
              | none => (boat2, type1)
              | some (tag, s7) =>
                let boat3 := { boat2 with info := { boat2.info with trailerTag := tag } }
                match scanComma s7 with
                | none => (boat3, type1)
                | some s8 =>
                  match scanFloat s8 with
                  | none => (boat3, type1)
                  | some (owed, _) => ({ boat3 with amountOwed := owed }, type1)

/-- The `switch (boat->type)` of `loadData` and `addBoat`, which fills the union
member of the record's type from the text in `boat->info.trailerTag`. -/
def setInfo (boat : Boat) : Boat :=
  match boat.type with
  | BoatType.SLIP =>
    match scanInt boat.info.trailerTag with
    | some (n, _) => { boat with info := { boat.info with slipNum := n } }
    | none => boat
  | BoatType.LAND =>
    { boat with info := { boat.info with
        bayLetter := match boat.info.trailerTag with
          | [] => 0
          | c :: _ => c.val } }
  | BoatType.TRAILER => boat
  | BoatType.STORAGE =>
    match scanInt boat.info.trailerTag with
    | some (n, _) => { boat with info := { boat.info with storageNumber := n } }
    | none => boat
  | BoatType.NO_PLACE => boat

/-- The statements that `loadData` and `addBoat` share: a record is allocated,
scanned from the text and its union member is set. `fresh` and `type` stand for
the indeterminate contents of the block that `malloc` returns and of the local
buffer `char type[20]`. -/
def readBoat (fresh : Boat) (type : CString) (csvData : CString) : Boat :=
  match sscanfBoat csvData fresh type with
  | (boat, type1) => setInfo { boat with type := getBoatType type1 }

/-! ## Writing a record -/

/-- The bytes of a C string. -/
def bytes (s : CString) : List Nat := s.map Subtype.val

/-- The comma, code 44. -/
def comma : CChar := ⟨44, by decide⟩

/-- The `switch (boats[i]->type)` of `saveData`: the bytes that `fprintf` writes for
the union member of the record's type, with the comma that follows it. -/
def fprintInfo (b : Boat) : List Nat :=
  match b.type with
  | BoatType.SLIP => bytes (printInt b.info.slipNum) ++ [44]
  | BoatType.LAND => [b.info.bayLetter, 44]
  | BoatType.TRAILER => bytes b.info.trailerTag ++ [44]
  | BoatType.STORAGE => bytes (printInt b.info.storageNumber) ++ [44]
  | BoatType.NO_PLACE => []

/-- Rounding of a non-negative value to the nearest integer, a tie going to the
even one, as `printf` rounds the digits it drops. -/
def roundHalfEven (q : ℚ) : Nat :=
  let f : Nat := (Int.floor q).toNat
  if q - f < 1 / 2 then f
  else if 1 / 2 < q - f then f + 1
  else if f % 2 = 0 then f
  else f + 1

/-- The output of `%.2f`: a minus sign for a negative value, the digits of the
integer part, a point and two digits of the fraction. -/
def printFixed2 (x : ℚ) : CString :=
  let k : Nat := roundHalfEven (|x| * 100)
  let body : CString :=
    natDigits (k / 100 + 1) (k / 100) []
      ++ [⟨46, by decide⟩, digitChar (k % 100 / 10), digitChar (k % 10)]
  if x < 0 then ⟨45, by decide⟩ :: body else body

/-- The three `fprintf` calls of `saveData` for one record: the bytes of its line. -/
def saveLine (b : Boat) : List Nat :=
  bytes b.name ++ [44] ++ bytes (printFixed2 b.length) ++ [44]
    ++ bytes (getBoatTypeStr b.type) ++ [44]
    ++ fprintInfo b
    ++ bytes (printFixed2 b.amountOwed) ++ [10]

/-- The loop of `saveData`: the lines of the live records, in slot order. -/
def saveLoop : List (Option Boat) → List Nat
  | [] => []
  | none :: rest => saveLoop rest
  | some b :: rest => saveLine b ++ saveLoop rest

/-- Function `saveData`: the bytes written to the file, or `none` when the program
exits because `fopen` fails; `opened` tells whether `fopen` succeeds. -/
def saveData (opened : Bool) (boats : List (Option Boat)) : Option (List Nat) :=
  if opened then some (saveLoop boats) else none

/-! ## Loading the file -/

/-- Function `fgets(line, n + 1, file)` on a file that is not at its end: at most `n`
bytes are read, up to and with the first newline. Returns the bytes read and
the rest of the file. -/
def fgets : Nat → List Nat → List Nat × List Nat
  | 0, file => ([], file)
  | _ + 1, [] => ([], [])
  | n + 1, c :: file =>
    if c = 10 then ([c], file)
    else
      let r := fgets n file
      (c :: r.1, r.2)

/-- The C string in a buffer of bytes: the bytes before the first NUL. -/
def ofBytes : List Nat → CString
  | [] => []
  | c :: rest => if h : 0 < c then ⟨c, h⟩ :: ofBytes rest else []

/-- The loop `while (fgets(line, sizeof(line), file) && index < MAX_BOATS)` of
`loadData`, with `MAX_BOATS - index` as first argument: `fgets` gives `NULL` at the
end of the file, and each line read is scanned into a new record that goes
into slot `index`. `fresh i` and `type i` are the indeterminate contents of the
block allocated and of the buffer `type` in the pass for slot `i`. -/
def loadLoop (fresh : Nat → Boat) (type : Nat → CString) :
    Nat → Nat → List Nat → List (Option Boat) → List (Option Boat)
  | 0, _, _, boats => boats
  | _ + 1, _, [], boats => boats
  | left + 1, index, c :: file, boats =>
    let r := fgets 255 (c :: file)
    loadLoop fresh type left (index + 1) r.2
      (boats.set index (some (readBoat (fresh index) (type index) (ofBytes r.1))))

/-- Function `loadData`: load data from a csv file; `file` holds the bytes of the
file and is `none` when `fopen` fails, and the result is `none` when the
program exits. `malloc` is taken to succeed. -/
def loadData (fresh : Nat → Boat) (type : Nat → CString) (file : Option (List Nat))
    (boats : List (Option Boat)) : Option (List (Option Boat)) :=
  match file with
  | none => none
  | some content => some (loadLoop fresh type MAX_BOATS 0 content boats)

/-! ## Operations on the store -/

/-- The loop of `addBoat`: the record goes into the first `NULL` slot, if any. -/
def insertBoat (boat : Boat) : List (Option Boat) → List (Option Boat)
  | [] => []
  | none :: rest => some boat :: rest
  | some b :: rest => some b :: insertBoat boat rest

/-- Function `addBoat`: add a boat from csv data; `csvData` is `none` for a `NULL` pointer. -/
def addBoat (fresh : Boat) (type : CString) (csvData : Option CString)
    (boats : List (Option Boat)) : List (Option Boat) :=
  match csvData with
  | none => boats
  | some csv => insertBoat (readBoat fresh type csv) boats

/-- What `removeBoat` prints. -/
inductive RemoveResult where
  | removed
  | notFound
  deriving DecidableEq

/-- Function `removeBoat`: the first live record whose name matches is released and its
slot set to `NULL`. -/
def removeBoat (name : CString) : List (Option Boat) → List (Option Boat) × RemoveResult
  | [] => ([], RemoveResult.notFound)
  | none :: rest =>
    let r := removeBoat name rest
    (none :: r.1, r.2)
  | some b :: rest =>
    if strcasecmp b.name name = 0 then (none :: rest, RemoveResult.removed)
    else
      let r := removeBoat name rest
      (some b :: r.1, r.2)

/-- What `acceptPayment` prints. -/
inductive PaymentResult where
  | notFound
  | overpayment (owed : ℚ)
  | accepted (newOwed : ℚ)
  deriving DecidableEq

/-- Function `acceptPayment`: the first live record whose name matches takes the payment;
`amount` is the value read by `scanf("%f", &amount)`. -/
def acceptPayment (name : CString) (amount : ℚ) :
    List (Option Boat) → List (Option Boat) × PaymentResult
  | [] => ([], PaymentResult.notFound)
  | none :: rest =>
    let r := acceptPayment name amount rest
    (none :: r.1, r.2)
  | some b :: rest =>
    if strcasecmp b.name name = 0 then
      if amount > b.amountOwed then
        (some b :: rest, PaymentResult.overpayment b.amountOwed)
      else
        (some { b with amountOwed := b.amountOwed - amount } :: rest,
          PaymentResult.accepted (b.amountOwed - amount))
    else
      let r := acceptPayment name amount rest
      (some b :: r.1, r.2)

/-- Function `updateAmountOwed`: every live record is charged its rate times its length. -/
def updateAmountOwed : List (Option Boat) → List (Option Boat)
  | [] => []
  | none :: rest => none :: updateAmountOwed rest
  | some b :: rest =>
    let rate : ℚ :=
      match b.type with
      | BoatType.SLIP => 12.50
      | BoatType.LAND => 14.00
      | BoatType.TRAILER => 25.00
      | BoatType.STORAGE => 11.20
      | BoatType.NO_PLACE => 0.00
    some { b with amountOwed := b.amountOwed + rate * b.length } :: updateAmountOwed rest

/-- Function `compareBoats`: compare two slots for use in sorting. -/
def compareBoats (a b : Option Boat) : Int :=
  match a, b with
  | none, _ => 1
  | some _, none => -1
  | some boatA, some boatB => strcasecmp boatA.name boatB.name

/-! ## Sorting and listing

`qsort` belongs to the C library. It is modelled by the merge sort that glibc
runs on an array of this size (`msort_with_tmp` in `stdlib/msort.c`): the array
is cut at `n / 2`, both parts are sorted, and the parts are merged, the element
of the first part being taken whenever `cmp(b1, b2) <= 0`. -/

/-- The merge loop for a fixed head `x :: xs` of the first run; `self` merges `xs`. -/
def mergeHead {α : Type} (cmp : α → α → Int) (self : List α → List α) (x : α) (xs : List α) :
    List α → List α
  | [] => x :: xs
  | y :: ys => if cmp x y ≤ 0 then x :: self (y :: ys) else y :: mergeHead cmp self x xs ys

/-- The merge of two runs. -/
def mergeRuns {α : Type} (cmp : α → α → Int) : List α → List α → List α
  | [] => fun ys => ys
  | x :: xs => mergeHead cmp (mergeRuns cmp xs) x xs

/-- Function `msort_with_tmp(b, n)`; `depth` bounds the depth of the recursion. -/
def msort {α : Type} (cmp : α → α → Int) : Nat → List α → List α
  | 0, b => b
  | depth + 1, b =>
    if b.length ≤ 1 then b
    else
      mergeRuns cmp (msort cmp depth (b.take (b.length / 2)))
        (msort cmp depth (b.drop (b.length / 2)))

/-- Function `qsort(base, nmemb, size, compar)` on the array `base` of `nmemb` elements. -/
def qsort {α : Type} (base : List α) (compar : α → α → Int) : List α :=
  msort compar base.length base

/-- The printing loop of `printInventory`: the records printed, in order. -/
def printLoop : List (Option Boat) → List Boat
  | [] => []
  | none :: rest => printLoop rest
  | some b :: rest => b :: printLoop rest

/-- Function `printInventory`: the store is sorted in place and its live records are
printed in the order of the slots. Returns the store and the records printed. -/
def printInventory (boats : List (Option Boat)) : List (Option Boat) × List Boat :=
  let sorted := qsort boats compareBoats
  (sorted, printLoop sorted)

/-! ## Predicates of the specification -/

/-- Slot `i` holds the record `b`, whose name matches `name` ignoring case, and
no live record in a slot before `i` matches: `b` is the record that a lookup of
`name` finds. -/
def FirstMatch (name : CString) (boats : List (Option Boat)) (i : Nat) (b : Boat) : Prop :=
  boats[i]? = some (some b) ∧ strcasecmp b.name name = 0 ∧
    ∀ j, j < i → ∀ b', boats[j]? = some (some b') → strcasecmp b'.name name ≠ 0

/-- No two live records have names that compare equal ignoring case. -/
def UniqueNames (boats : List (Option Boat)) : Prop :=
  (liveBoats boats).Pairwise (fun a b => strcasecmp a.name b.name ≠ 0)

/-- The monthly rate per foot of the specification's billing rule. -/
def monthlyRate : BoatType → ℚ
  | BoatType.SLIP => 12.50
  | BoatType.LAND => 14.00
  | BoatType.TRAILER => 25.00
  | BoatType.STORAGE => 11.20
  | BoatType.NO_PLACE => 0.00

/-- The record `b` after one monthly charge of `monthlyRate b.type * b.length`. -/
def charged (b : Boat) : Boat :=
  { b with amountOwed := b.amountOwed + monthlyRate b.type * b.length }

/-- The order that `compareBoats` is meant to define on slots: a live record
stands before an empty slot, and live records stand in the order of their names
ignoring case. -/
def SlotLE (a b : Option Boat) : Prop :=
  match a, b with
  | _, none => True
  | none, some _ => False
  | some x, some y => strcasecmp x.name y.name ≤ 0

/-! ## Examples and well-formedness -/

/-- The record of the payment examples, owing `owed`. -/
def bob (owed : ℚ) : Boat :=
  { name := cstr "Bob", length := 20, type := BoatType.SLIP,
    info := { slipNum := 7, bayLetter := 0, trailerTag := cstr "7", storageNumber := 0 },
    amountOwed := owed }

/-- The store of the payment examples: an empty slot, the record `bob owed`,
and 118 more empty slots. -/
def paymentStore (owed : ℚ) : List (Option Boat) :=
  none :: some (bob owed) :: List.replicate 118 none

/-- The store of the listing example: records named Bob, alice and Carl, in
this order, among empty slots. -/
def listingStore : List (Option Boat) :=
  none :: some { bob 0 with name := cstr "Bob" } :: some { bob 0 with name := cstr "alice" }
    :: none :: some { bob 0 with name := cstr "Carl" } :: List.replicate 115 none

/-- Successive calls of `addBoat`, one for each input: the contents of the
allocated block and of the buffer `type`, and the text. -/
def addBoats (inputs : List (Boat × CString × CString)) (boats : List (Option Boat)) :
    List (Option Boat) :=
  inputs.foldl (fun s x => addBoat x.1 x.2.1 (some x.2.2) s) boats

/-- The payload of a record as the round-trip law of the specification describes
a well-formed one: a slip or storage number of the range of `int`, a bay letter,
a trailer tag of at most 19 characters without a comma. -/
def PayloadAsSpecified (b : Boat) : Prop :=
  match b.type with
  | BoatType.SLIP => -2147483648 ≤ b.info.slipNum ∧ b.info.slipNum ≤ 2147483647
  | BoatType.LAND =>
    (65 ≤ b.info.bayLetter ∧ b.info.bayLetter ≤ 90) ∨
      (97 ≤ b.info.bayLetter ∧ b.info.bayLetter ≤ 122)
  | BoatType.TRAILER =>
    b.info.trailerTag.length ≤ 19 ∧ ∀ c ∈ b.info.trailerTag, c.val ≠ 44
  | BoatType.STORAGE => -2147483648 ≤ b.info.storageNumber ∧ b.info.storageNumber ≤ 2147483647
  | BoatType.NO_PLACE => True

/-- A well-formed payload: as specified, and a trailer tag is not empty. -/
def WellFormedPayload (b : Boat) : Prop :=
  PayloadAsSpecified b ∧ (b.type = BoatType.TRAILER → b.info.trailerTag ≠ [])

/-- The conversions of the name and of the length of `line` succeed, with the
commas after them, and `s4` is the input that is left, which starts at the type. -/
def ReadsNameAndLength (line s4 : CString) : Prop :=
  ∃ name s1 s2 length s3, scanSet line = some (name, s1) ∧ scanComma s1 = some s2 ∧
    scanFloat s2 = some (length, s3) ∧ scanComma s3 = some s4

/-- The text of the payload that `saveData` writes, for a well-formed payload. -/
def payloadText (b : Boat) : CString :=
  match b.type with
  | BoatType.SLIP => printInt b.info.slipNum
  | BoatType.LAND => if h : 0 < b.info.bayLetter then [⟨b.info.bayLetter, h⟩] else []
  | BoatType.TRAILER => b.info.trailerTag
  | BoatType.STORAGE => printInt b.info.storageNumber
  | BoatType.NO_PLACE => []

/-- A trailer record whose tag is empty. -/
def emptyTagBoat : Boat :=
  { name := cstr "Bob", length := 20, type := BoatType.TRAILER,
    info := { slipNum := 0, bayLetter := 0, trailerTag := [], storageNumber := 0 },
    amountOwed := 0 }

/-- Every live record owes a non-negative amount and has a non-negative length. -/
def NonNegative (boats : List (Option Boat)) : Prop :=
  ∀ b, some b ∈ boats → 0 ≤ b.amountOwed ∧ 0 ≤ b.length

/-- The record `b` with its amount owed set to zero: all that a payment leaves alone. -/
def Boat.besidesOwed (b : Boat) : Boat := { b with amountOwed := 0 }

/-- A full store whose first record is named Ann. -/
def fullStore : List (Option Boat) :=
  some { bob 100 with name := cstr "Ann" } :: List.replicate 119 (some (bob 100))

/-- The record's name is `candidate`, ignoring case. -/
def matchesName (candidate : CString) (b : Boat) : Bool :=
  decide (strcasecmp b.name candidate = 0)

/-- The slot holds a record whose name is `candidate`, ignoring case. -/
def slotMatches (candidate : CString) : Option Boat → Bool
  | none => false
  | some b => matchesName candidate b

/-- The newline, code 10. -/
def newline : CChar := ⟨10, by decide⟩

/-- The bytes of a file of the given lines, each ended by a newline. -/
def fileOfLines : List CString → List Nat
  | [] => []
  | line :: rest => bytes line ++ 10 :: fileOfLines rest

/-- The records read from the given lines, the first of them in the pass for
slot `index`: each is scanned from its line with the newline that ends it. -/
def recordsOfLines (fresh : Nat → Boat) (type : Nat → CString) : Nat → List CString → List Boat
  | _, [] => []
  | index, line :: rest =>
    readBoat (fresh index) (type index) (line ++ [newline])
      :: recordsOfLines fresh type (index + 1) rest

/-- The store after the given records are put into the slots from `index` on. -/
def writeFrom : Nat → List Boat → List (Option Boat) → List (Option Boat)
  | _, [], boats => boats
  | index, b :: rest, boats => writeFrom (index + 1) rest (boats.set index (some b))

/-- A line that `fgets` reads whole: fewer than 255 characters, none of them a
newline, before the newline that ends it. -/
def FitsBuffer (line : CString) : Prop :=
  line.length < 255 ∧ ∀ c ∈ line, c.val ≠ 10

/-- An exact two-decimal value: a whole number of hundredths. -/
def TwoDecimal (x : ℚ) : Prop := ∃ m : Int, x = m / 100

/-- What the persisted line of a record tells: its name, length, location and
amount owed. -/
def Boat.fields (b : Boat) : CString × ℚ × StorageLocation × ℚ :=
  (b.name, b.length, b.location, b.amountOwed)

/-- A record as the save-then-load law of the specification describes a
well-formed one: one of the four known kinds, a name that is not empty and has
no comma, a well-formed payload, a length and an amount owed that are exact
two-decimal values. -/
def RecordAsSpecified (b : Boat) : Prop :=
  b.type ≠ BoatType.NO_PLACE ∧ b.name ≠ [] ∧ (∀ c ∈ b.name, c.val ≠ 44) ∧
    WellFormedPayload b ∧ TwoDecimal b.length ∧ TwoDecimal b.amountOwed

/-- A record that its line brings back: as specified, with no newline in its
name nor in its trailer tag, and with a line of at most the 255 characters
that `fgets` reads at once. -/
def WellFormedRecord (b : Boat) : Prop :=
  RecordAsSpecified b ∧ (∀ c ∈ b.name, c.val ≠ 10) ∧
    (b.type = BoatType.TRAILER → ∀ c ∈ b.info.trailerTag, c.val ≠ 10) ∧
    (saveLine b).length ≤ 255

/-- The text of the line that `saveData` writes for a well-formed record, before
its newline. -/
def lineText (b : Boat) : CString :=
  b.name ++ comma :: (printFixed2 b.length ++ comma :: (getBoatTypeStr b.type
    ++ comma :: (payloadText b ++ comma :: printFixed2 b.amountOwed)))

/-- A store whose one record has a name that ends with a newline, as `loadData`
reads a name from a line without a comma. -/
def newlineStore : List (Option Boat) :=
  none :: some { bob 100 with name := cstr "Bob\n" } :: List.replicate 118 none

/-- A store with a record of each of the four known kinds. -/
def fourKindsStore : List (Option Boat) :=
  some (bob 100)
    :: some { name := cstr "Sea Witch", length := 61 / 2, type := BoatType.LAND,
              info := { slipNum := 0, bayLetter := 81, trailerTag := [], storageNumber := 0 },
              amountOwed := 0 }
    :: none
    :: some { name := cstr "Carl", length := 12, type := BoatType.TRAILER,
              info := { slipNum := 0, bayLetter := 0, trailerTag := cstr "XY12",
                        storageNumber := 0 },
              amountOwed := 1003 / 4 }
    :: some { name := cstr "alice", length := 8, type := BoatType.STORAGE,
              info := { slipNum := 0, bayLetter := 0, trailerTag := [], storageNumber := 44 },
              amountOwed := -5 }
    :: List.replicate 115 none

/-! ## Amounts with infinities and NaN

The values of a `float` that are not numbers decide what the sign of an amount
owed can become. The operations that change or keep what is owed are stated
once more over floats with these values; on numbers the arithmetic is exact,
as before. -/

/-- A value of the C type `float`: a number, an infinity or NaN. -/
inductive CFloat where
  | num (q : ℚ)
  | posInf
  | negInf
  | nan
  deriving DecidableEq

/-- The comparison `a > b` of floats: false when either is NaN. -/
def CFloat.gt : CFloat → CFloat → Bool
  | CFloat.num a, CFloat.num b => decide (a > b)
  | CFloat.posInf, CFloat.num _ => true
  | CFloat.posInf, CFloat.negInf => true
  | CFloat.num _, CFloat.negInf => true
  | _, _ => false

/-- The comparison `a >= b` of floats: false when either is NaN. -/
def CFloat.ge : CFloat → CFloat → Bool
  | CFloat.num a, CFloat.num b => decide (a ≥ b)
  | CFloat.nan, _ => false
  | _, CFloat.nan => false
  | CFloat.posInf, _ => true
  | _, CFloat.negInf => true
  | _, _ => false

/-- The sum of floats: NaN for a NaN and for infinities of opposite signs. -/
def CFloat.add : CFloat → CFloat → CFloat
  | CFloat.num a, CFloat.num b => CFloat.num (a + b)
  | CFloat.nan, _ => CFloat.nan
  | _, CFloat.nan => CFloat.nan
  | CFloat.posInf, CFloat.negInf => CFloat.nan
  | CFloat.negInf, CFloat.posInf => CFloat.nan
  | CFloat.posInf, _ => CFloat.posInf
  | _, CFloat.posInf => CFloat.posInf
  | CFloat.negInf, _ => CFloat.negInf
  | _, CFloat.negInf => CFloat.negInf

/-- The difference of floats: NaN for a NaN and for infinities of the same sign. -/
def CFloat.sub : CFloat → CFloat → CFloat
  | CFloat.num a, CFloat.num b => CFloat.num (a - b)
  | CFloat.nan, _ => CFloat.nan
  | _, CFloat.nan => CFloat.nan
  | CFloat.posInf, CFloat.posInf => CFloat.nan
  | CFloat.negInf, CFloat.negInf => CFloat.nan
  | CFloat.posInf, _ => CFloat.posInf
  | CFloat.negInf, _ => CFloat.negInf
  | _, CFloat.posInf => CFloat.negInf
  | _, CFloat.negInf => CFloat.posInf

/-- The infinity of the sign of `q`, and NaN for zero: the product of `q` and `+inf`. -/
def CFloat.timesInf (q : ℚ) : CFloat :=
  if 0 < q then CFloat.posInf else if q < 0 then CFloat.negInf else CFloat.nan

/-- The product of floats: NaN for a NaN and for zero times an infinity. -/
def CFloat.mul : CFloat → CFloat → CFloat
  | CFloat.num a, CFloat.num b => CFloat.num (a * b)
  | CFloat.nan, _ => CFloat.nan
  | _, CFloat.nan => CFloat.nan
  | CFloat.num a, CFloat.posInf => CFloat.timesInf a
  | CFloat.num a, CFloat.negInf => CFloat.timesInf (-a)
  | CFloat.posInf, CFloat.num b => CFloat.timesInf b
  | CFloat.negInf, CFloat.num b => CFloat.timesInf (-b)
  | CFloat.posInf, CFloat.posInf => CFloat.posInf
  | CFloat.negInf, CFloat.negInf => CFloat.posInf
  | CFloat.posInf, CFloat.negInf => CFloat.negInf
  | CFloat.negInf, CFloat.posInf => CFloat.negInf

/-- The record `Boat` with `length` and `amountOwed` as floats that need not be numbers. -/
structure BoatF where
  name : CString
  length : CFloat
  type : BoatType
  info : ExtraInfo
  amountOwed : CFloat
  deriving DecidableEq

/-- What `acceptPayment` prints, the amounts being floats. -/
inductive PaymentResultF where
  | notFound
  | overpayment (owed : CFloat)
  | accepted (newOwed : CFloat)
  deriving DecidableEq

/-- Function `acceptPayment` over floats: the first live record whose name matches
takes the payment; `amount` is the value that `scanf("%f", &amount)` reads, which
is NaN for the text `nan`. -/
def acceptPaymentF (name : CString) (amount : CFloat) :
    List (Option BoatF) → List (Option BoatF) × PaymentResultF
  | [] => ([], PaymentResultF.notFound)
  | none :: rest =>
    let r := acceptPaymentF name amount rest
    (none :: r.1, r.2)
  | some b :: rest =>
    if strcasecmp b.name name = 0 then
      if CFloat.gt amount b.amountOwed then
        (some b :: rest, PaymentResultF.overpayment b.amountOwed)
      else
        (some { b with amountOwed := CFloat.sub b.amountOwed amount } :: rest,
          PaymentResultF.accepted (CFloat.sub b.amountOwed amount))
    else
      let r := acceptPaymentF name amount rest
      (some b :: r.1, r.2)

/-- Function `updateAmountOwed` over floats: every live record is charged its rate
times its length. -/
def updateAmountOwedF : List (Option BoatF) → List (Option BoatF)
  | [] => []
  | none :: rest => none :: updateAmountOwedF rest
  | some b :: rest =>
    let rate : CFloat :=
      match b.type with
      | BoatType.SLIP => CFloat.num 12.50
      | BoatType.LAND => CFloat.num 14.00
      | BoatType.TRAILER => CFloat.num 25.00
      | BoatType.STORAGE => CFloat.num 11.20
      | BoatType.NO_PLACE => CFloat.num 0.00
    some { b with amountOwed := CFloat.add b.amountOwed (CFloat.mul rate b.length) }
      :: updateAmountOwedF rest

/-- Function `removeBoat` over records with floats: the first live record whose
name matches is released and its slot set to `NULL`. -/
def removeBoatF (name : CString) : List (Option BoatF) → List (Option BoatF) × RemoveResult
  | [] => ([], RemoveResult.notFound)
  | none :: rest =>
    let r := removeBoatF name rest
    (none :: r.1, r.2)
  | some b :: rest =>
    if strcasecmp b.name name = 0 then (none :: rest, RemoveResult.removed)
    else
      let r := removeBoatF name rest
      (some b :: r.1, r.2)

/-- The record `b`, whose length and amount owed are numbers, as a record with floats. -/
def Boat.toF (b : Boat) : BoatF :=
  { name := b.name, length := CFloat.num b.length, type := b.type, info := b.info,
    amountOwed := CFloat.num b.amountOwed }

/-- The store `boats` as a store of records with floats. -/
def storeF (boats : List (Option Boat)) : List (Option BoatF) :=
  boats.map (Option.map Boat.toF)

/-- Every live record has `amountOwed >= 0` and `length >= 0`, as floats. -/
def NonNegativeF (boats : List (Option BoatF)) : Prop :=
  ∀ b, some b ∈ boats →
    CFloat.ge b.amountOwed (CFloat.num 0) = true ∧ CFloat.ge b.length (CFloat.num 0) = true

/-- Every live record has an amount owed and a length that are numbers, not
infinities nor NaN, and are not negative. -/
def FiniteNonNegative (boats : List (Option BoatF)) : Prop :=
  ∀ b, some b ∈ boats →
    (∃ q : ℚ, b.amountOwed = CFloat.num q ∧ 0 ≤ q) ∧ (∃ l : ℚ, b.length = CFloat.num l ∧ 0 ≤ l)

/-- Every live record has `amountOwed >= 0`, as a float. -/
def OwedNonNegative (boats : List (Option BoatF)) : Prop :=
  ∀ b, some b ∈ boats → CFloat.ge b.amountOwed (CFloat.num 0) = true

/-- A record that owes an infinite amount. -/
def endlessDebt : BoatF :=
  { name := cstr "Bob", length := CFloat.num 20, type := BoatType.SLIP,
    info := { slipNum := 7, bayLetter := 0, trailerTag := cstr "7", storageNumber := 0 },
    amountOwed := CFloat.posInf }

/-- A record of unknown kind and of infinite length that owes nothing. -/
def endlessBoat : BoatF :=
  { name := cstr "Hull", length := CFloat.posInf, type := BoatType.NO_PLACE,
    info := { slipNum := 0, bayLetter := 0, trailerTag := [], storageNumber := 0 },
    amountOwed := CFloat.num 0 }

/-! ## Comparison of names -/

theorem tolower_pos (c : CChar) : 0 < tolower c.val := by
  have hc := c.2
  unfold tolower
  split <;> omega

theorem strcasecmp_antisymm (a b : CString) : strcasecmp b a = -strcasecmp a b := by
  induction a generalizing b with
  | nil => cases b <;> simp [strcasecmp]
  | cons x xs ih =>
    cases b with
    | nil => simp [strcasecmp]
    | cons y ys =>
      simp only [strcasecmp]
      by_cases h : tolower x.val = tolower y.val
      · simp [h, ih]
      · have h' : ¬ tolower y.val = tolower x.val := fun e => h e.symm
        simp [h, h']

theorem strcasecmp_self (a : CString) : strcasecmp a a = 0 := by
  induction a with
  | nil => rfl
  | cons x xs ih => simp [strcasecmp, ih]

theorem strcasecmp_trans (a b c : CString) (hab : strcasecmp a b ≤ 0)
    (hbc : strcasecmp b c ≤ 0) : strcasecmp a c ≤ 0 := by
  induction a generalizing b c with
  | nil =>
    cases c with
    | nil => simp [strcasecmp]
    | cons z zs => simp [strcasecmp]
  | cons x xs ih =>
    have hx := tolower_pos x
    cases b with
    | nil =>
      simp only [strcasecmp] at hab
      omega
    | cons y ys =>
      have hy := tolower_pos y
      cases c with
      | nil =>
        simp only [strcasecmp] at hbc
        omega
      | cons z zs =>
        simp only [strcasecmp] at hab hbc ⊢
        by_cases hxy : tolower x.val = tolower y.val
        · by_cases hyz : tolower y.val = tolower z.val
          · have hxz : tolower x.val = tolower z.val := hxy.trans hyz
            simp only [hxy, hyz, if_true] at hab hbc
            simp only [hxz, if_true]
            exact ih ys zs hab hbc
          · have hxz : ¬ tolower x.val = tolower z.val := fun e => hyz (hxy.symm.trans e)
            simp only [hyz, if_false] at hbc
            simp only [hxz, if_false]
            omega
        · simp only [hxy, if_false] at hab
          by_cases hyz : tolower y.val = tolower z.val
          · have hxz : ¬ tolower x.val = tolower z.val := fun e => hxy (e.trans hyz.symm)
            simp only [hxz, if_false]
            omega
          · simp only [hyz, if_false] at hbc
            have hxz : ¬ tolower x.val = tolower z.val := by omega
            simp only [hxz, if_false]
            omega

/-- Names that match the same name match each other. -/
theorem strcasecmp_eq_zero_of_common (a b n : CString) (ha : strcasecmp a n = 0)
    (hb : strcasecmp b n = 0) : strcasecmp a b = 0 := by
  have hnb : strcasecmp n b = 0 := by rw [strcasecmp_antisymm b n, hb]; rfl
  have hna : strcasecmp n a = 0 := by rw [strcasecmp_antisymm a n, ha]; rfl
  have h1 := strcasecmp_trans a n b (le_of_eq ha) (le_of_eq hnb)
  have h2 := strcasecmp_trans b n a (le_of_eq hb) (le_of_eq hna)
  rw [strcasecmp_antisymm a b] at h2
  omega

/-! ## Lookup by name -/

theorem firstMatch_cons_none {name : CString} {rest : List (Option Boat)} {i : Nat} {b : Boat}
    (h : FirstMatch name (none :: rest) i b) :
    ∃ j, i = j + 1 ∧ FirstMatch name rest j b := by
  obtain ⟨h1, h2, h3⟩ := h
  cases i with
  | zero => simp at h1
  | succ j =>
    refine ⟨j, rfl, ?_, h2, ?_⟩
    · simpa using h1
    · intro k hk b' hb'
      exact h3 (k + 1) (by omega) b' (by simpa using hb')

theorem firstMatch_cons_some {name : CString} {a : Boat} {rest : List (Option Boat)} {i : Nat}
    {b : Boat} (h : FirstMatch name (some a :: rest) i b) :
    (strcasecmp a.name name = 0 ∧ i = 0 ∧ b = a) ∨
      (strcasecmp a.name name ≠ 0 ∧ ∃ j, i = j + 1 ∧ FirstMatch name rest j b) := by
  obtain ⟨h1, h2, h3⟩ := h
  cases i with
  | zero =>
    left
    have hab : a = b := by simpa using h1
    subst hab
    exact ⟨h2, rfl, rfl⟩
  | succ j =>
    right
    refine ⟨h3 0 (by omega) a (by simp), j, rfl, ?_, h2, ?_⟩
    · simpa using h1
    · intro k hk b' hb'
      exact h3 (k + 1) (by omega) b' (by simpa using hb')

theorem exists_firstMatch (name : CString) (boats : List (Option Boat)) (a : Boat)
    (ha : some a ∈ boats) (hn : strcasecmp a.name name = 0) :
    ∃ i b, FirstMatch name boats i b := by
  induction boats with
  | nil => simp at ha
  | cons x rest ih =>
    cases x with
    | none =>
      have ha' : some a ∈ rest := by simpa using ha
      obtain ⟨i, b, h1, h2, h3⟩ := ih ha'
      refine ⟨i + 1, b, by simpa using h1, h2, ?_⟩
      intro j hj b' hb'
      cases j with
      | zero => simp at hb'
      | succ k => exact h3 k (by omega) b' (by simpa using hb')
    | some c =>
      by_cases hc : strcasecmp c.name name = 0
      · exact ⟨0, c, by simp, hc, by intro j hj; omega⟩
      · have ha' : some a ∈ rest := by
          rcases List.mem_cons.1 ha with h | h
          · have hac : a = c := by simpa using h
            subst hac
            exact absurd hn hc
          · exact h
        obtain ⟨i, b, h1, h2, h3⟩ := ih ha'
        refine ⟨i + 1, b, by simpa using h1, h2, ?_⟩
        intro j hj b' hb'
        cases j with
        | zero =>
          have hcb : c = b' := by simpa using hb'
          subst hcb
          exact hc
        | succ k => exact h3 k (by omega) b' (by simpa using hb')

/-! ## Payments -/

theorem paymentStore_firstMatch (owed : ℚ) :
    FirstMatch (cstr "BOB") (paymentStore owed) 1 (bob owed) := by
  have hname : strcasecmp (cstr "Bob") (cstr "BOB") = 0 := by decide
  refine ⟨rfl, hname, ?_⟩
  intro j hj b' hb'
  have hj0 : j = 0 := by omega
  subst hj0
  have h0 : (paymentStore owed)[0]? = some none := rfl
  rw [h0] at hb'
  cases hb'

/-- C1. An overpayment is rejected and changes nothing: when the lookup of `name`
finds the record `b` and `amount > b.amountOwed`, `acceptPayment` reports the
amount that `b` owes and returns the store as it was. -/
theorem acceptPayment_overpayment (boats : List (Option Boat)) (name : CString) (amount : ℚ)
    (i : Nat) (b : Boat) (hfound : FirstMatch name boats i b) (hover : amount > b.amountOwed) :
    acceptPayment name amount boats = (boats, PaymentResult.overpayment b.amountOwed) := by
  induction boats generalizing i with
  | nil => simp [FirstMatch] at hfound
  | cons x rest ih =>
    cases x with
    | none =>
      obtain ⟨j, _, hj⟩ := firstMatch_cons_none hfound
      simp [acceptPayment, ih j hj]
    | some a =>
      rcases firstMatch_cons_some hfound with ⟨ha, _, hba⟩ | ⟨ha, j, _, hj⟩
      · subst hba
        simp [acceptPayment, ha, hover]
      · simp [acceptPayment, ha, ih j hj]

/-- C1, at the example of the specification: owed 100.00, payment 150.00. -/
theorem acceptPayment_overpayment_witness :
    FirstMatch (cstr "BOB") (paymentStore 100) 1 (bob 100) ∧ (150 : ℚ) > (bob 100).amountOwed ∧
      acceptPayment (cstr "BOB") 150 (paymentStore 100)
        = (paymentStore 100, PaymentResult.overpayment 100) :=
  ⟨paymentStore_firstMatch 100, by norm_num [bob],
    acceptPayment_overpayment (paymentStore 100) (cstr "BOB") 150 1 (bob 100)
      (paymentStore_firstMatch 100) (by norm_num [bob])⟩

theorem updateAmountOwed_eq_map (boats : List (Option Boat)) :
    updateAmountOwed boats = boats.map (Option.map charged) := by
  induction boats with
  | nil => rfl
  | cons x rest ih =>
    cases x with
    | none => simp [updateAmountOwed, ih]
    | some b =>
      cases hb : b.type <;> simp [updateAmountOwed, ih, charged, monthlyRate, hb]

/-- C3. `updateAmountOwed` keeps every slot in its place, leaves an empty slot
empty and adds `monthlyRate b.type * b.length` to what a live record `b` owes,
the rates being 12.50, 14.00, 25.00, 11.20 and 0.00; a slip of length 20 owing
0 then owes 250.00, a land record of length 10 gains 140.00, a trailer of length
5 gains 125.00 and a storage record of length 15 gains 168.00. -/
theorem updateAmountOwed_spec :
    (∀ (boats : List (Option Boat)) (i : Nat),
        (updateAmountOwed boats)[i]? = (boats[i]?).map (Option.map charged)) ∧
    (∀ boats : List (Option Boat), (updateAmountOwed boats).length = boats.length) ∧
    (monthlyRate BoatType.SLIP = 25 / 2 ∧ monthlyRate BoatType.LAND = 14 ∧
      monthlyRate BoatType.TRAILER = 25 ∧ monthlyRate BoatType.STORAGE = 56 / 5 ∧
      monthlyRate BoatType.NO_PLACE = 0) ∧
    (∀ (b : Boat) (rest : List (Option Boat)),
        updateAmountOwed
            (some { b with type := BoatType.SLIP, length := 20, amountOwed := 0 } :: rest)
          = some { b with type := BoatType.SLIP, length := 20, amountOwed := 250 }
              :: updateAmountOwed rest) ∧
    (∀ (b : Boat) (owed : ℚ) (rest : List (Option Boat)),
        updateAmountOwed
            (some { b with type := BoatType.LAND, length := 10, amountOwed := owed } :: rest)
          = some { b with type := BoatType.LAND, length := 10, amountOwed := owed + 140 }
              :: updateAmountOwed rest) ∧
    (∀ (b : Boat) (owed : ℚ) (rest : List (Option Boat)),
        updateAmountOwed
            (some { b with type := BoatType.TRAILER, length := 5, amountOwed := owed } :: rest)
          = some { b with type := BoatType.TRAILER, length := 5, amountOwed := owed + 125 }
              :: updateAmountOwed rest) ∧
    (∀ (b : Boat) (owed : ℚ) (rest : List (Option Boat)),
        updateAmountOwed
            (some { b with type := BoatType.STORAGE, length := 15, amountOwed := owed } :: rest)
          = some { b with type := BoatType.STORAGE, length := 15, amountOwed := owed + 168 }
              :: updateAmountOwed rest) := by
  refine ⟨?_, ?_, ?_, ?_, ?_, ?_, ?_⟩
  · intro boats i
    rw [updateAmountOwed_eq_map, List.getElem?_map]
  · intro boats
    rw [updateAmountOwed_eq_map, List.length_map]
  · refine ⟨?_, ?_, ?_, ?_, ?_⟩ <;> norm_num [monthlyRate]
  · intro b rest
    simp only [updateAmountOwed]
    norm_num
  · intro b owed rest
    simp only [updateAmountOwed]
    norm_num
  · intro b owed rest
    simp only [updateAmountOwed]
    norm_num
  · intro b owed rest
    simp only [updateAmountOwed]
    norm_num

/-! ## The merge sort -/

theorem mergeRuns_nil_right {α : Type} (cmp : α → α → Int) (xs : List α) :
    mergeRuns cmp xs [] = xs := by
  cases xs <;> rfl

theorem mergeRuns_cons_cons {α : Type} (cmp : α → α → Int) (x : α) (xs : List α) (y : α)
    (ys : List α) :
    mergeRuns cmp (x :: xs) (y :: ys)
      = if cmp x y ≤ 0 then x :: mergeRuns cmp xs (y :: ys)
        else y :: mergeRuns cmp (x :: xs) ys := rfl

theorem mergeRuns_perm {α : Type} (cmp : α → α → Int) (xs ys : List α) :
    (mergeRuns cmp xs ys).Perm (xs ++ ys) := by
  induction xs generalizing ys with
  | nil => exact List.Perm.refl _
  | cons x xs ihx =>
    induction ys with
    | nil => rw [mergeRuns_nil_right, List.append_nil]
    | cons y ys ihy =>
      rw [mergeRuns_cons_cons]
      split
      · exact (ihx (y :: ys)).cons x
      · exact (ihy.cons y).trans (List.perm_middle.symm)

theorem msort_perm {α : Type} (cmp : α → α → Int) (depth : Nat) (b : List α) :
    (msort cmp depth b).Perm b := by
  induction depth generalizing b with
  | zero => exact List.Perm.refl _
  | succ d ih =>
    simp only [msort]
    split
    · exact List.Perm.refl _
    · refine (mergeRuns_perm cmp _ _).trans ?_
      have h := (ih (b.take (b.length / 2))).append (ih (b.drop (b.length / 2)))
      rwa [List.take_append_drop] at h

/-- Merging keeps two runs in order, for every relation `r` that agrees with the
comparison in the sense of `h1` and `h2` and is transitive. -/
theorem mergeRuns_pairwise {α : Type} (cmp : α → α → Int) (r : α → α → Prop)
    (h1 : ∀ a b, cmp a b ≤ 0 → r a b) (h2 : ∀ a b, ¬ cmp a b ≤ 0 → r b a)
    (h3 : ∀ a b c, r a b → r b c → r a c) (xs ys : List α)
    (hx : xs.Pairwise r) (hy : ys.Pairwise r) : (mergeRuns cmp xs ys).Pairwise r := by
  induction xs generalizing ys with
  | nil => exact hy
  | cons x xs ihx =>
    induction ys with
    | nil => rwa [mergeRuns_nil_right]
    | cons y ys ihy =>
      rw [mergeRuns_cons_cons]
      obtain ⟨hxall, hxs⟩ := List.pairwise_cons.1 hx
      obtain ⟨hyall, hys⟩ := List.pairwise_cons.1 hy
      split
      · next hle =>
        refine List.pairwise_cons.2 ⟨?_, ihx (y :: ys) hxs hy⟩
        intro z hz
        rcases List.mem_append.1 ((mergeRuns_perm cmp xs (y :: ys)).mem_iff.1 hz) with hz | hz
        · exact hxall z hz
        · rcases List.mem_cons.1 hz with hz | hz
          · subst hz
            exact h1 _ _ hle
          · exact h3 _ _ _ (h1 _ _ hle) (hyall z hz)
      · next hgt =>
        refine List.pairwise_cons.2 ⟨?_, ihy hys⟩
        intro z hz
        rcases List.mem_append.1 ((mergeRuns_perm cmp (x :: xs) ys).mem_iff.1 hz) with hz | hz
        · rcases List.mem_cons.1 hz with hz | hz
          · subst hz
            exact h2 _ _ hgt
          · exact h3 _ _ _ (h2 _ _ hgt) (hxall z hz)
        · exact hyall z hz

theorem msort_pairwise {α : Type} (cmp : α → α → Int) (r : α → α → Prop)
    (h1 : ∀ a b, cmp a b ≤ 0 → r a b) (h2 : ∀ a b, ¬ cmp a b ≤ 0 → r b a)
    (h3 : ∀ a b c, r a b → r b c → r a c) (depth : Nat) (b : List α)
    (hd : b.length ≤ depth) : (msort cmp depth b).Pairwise r := by
  induction depth generalizing b with
  | zero =>
    have hb : b = [] := List.length_eq_zero.1 (by omega)
    subst hb
    exact List.Pairwise.nil
  | succ d ih =>
    simp only [msort]
    split
    · next hlen =>
      match b, hlen with
      | [], _ => exact List.Pairwise.nil
      | [a], _ => exact List.pairwise_singleton r a
      | _ :: _ :: _, hlen => simp at hlen
    · next hlen =>
      refine mergeRuns_pairwise cmp r h1 h2 h3 _ _ (ih _ ?_) (ih _ ?_)
      · rw [List.length_take]; omega
      · rw [List.length_drop]; omega

/-! ## The comparison of slots -/

theorem slotLE_of_compareBoats (a b : Option Boat) (h : compareBoats a b ≤ 0) : SlotLE a b := by
  cases a <;> cases b <;> simp_all [compareBoats, SlotLE]

theorem slotLE_of_not_compareBoats (a b : Option Boat) (h : ¬ compareBoats a b ≤ 0) :
    SlotLE b a := by
  cases a with
  | none => cases b <;> simp [SlotLE]
  | some x =>
    cases b with
    | none => simp [compareBoats] at h
    | some y =>
      simp only [compareBoats] at h
      simp only [SlotLE]
      rw [strcasecmp_antisymm x.name y.name]
      omega

theorem slotLE_trans (a b c : Option Boat) (hab : SlotLE a b) (hbc : SlotLE b c) :
    SlotLE a c := by
  cases c with
  | none => cases a <;> simp [SlotLE]
  | some z =>
    cases b with
    | none => simp [SlotLE] at hbc
    | some y =>
      cases a with
      | none => simp [SlotLE] at hab
      | some x => exact strcasecmp_trans _ _ _ hab hbc

theorem printLoop_eq_liveBoats (boats : List (Option Boat)) :
    printLoop boats = liveBoats boats := by
  induction boats with
  | nil => rfl
  | cons x rest ih =>
    cases x with
    | none => simpa [printLoop, liveBoats] using ih
    | some b => simpa [printLoop, liveBoats] using ih

theorem qsort_perm (boats : List (Option Boat)) : (qsort boats compareBoats).Perm boats :=
  msort_perm _ _ _

theorem qsort_slotLE (boats : List (Option Boat)) :
    (qsort boats compareBoats).Pairwise SlotLE :=
  msort_pairwise compareBoats SlotLE slotLE_of_compareBoats slotLE_of_not_compareBoats
    slotLE_trans _ _ (le_refl _)

/-- C4. The listing of `printInventory` is a permutation of the live records of
the store and is in non-decreasing order of name, compared ignoring case; the
records named Bob, alice, Carl are listed as alice, Bob, Carl. -/
theorem printInventory_sorted_perm :
    (∀ boats : List (Option Boat),
      (printInventory boats).2.Perm (liveBoats boats) ∧
      (printInventory boats).2.Pairwise (fun a b => strcasecmp a.name b.name ≤ 0)) ∧
    (printInventory listingStore).2.map Boat.name = [cstr "alice", cstr "Bob", cstr "Carl"] := by
  refine ⟨fun boats => ⟨?_, ?_⟩, by decide⟩
  · simp only [printInventory, printLoop_eq_liveBoats, liveBoats]
    exact (qsort_perm boats).filterMap id
  · simp only [printInventory, printLoop_eq_liveBoats, liveBoats]
    refine List.Pairwise.filterMap id ?_ (qsort_slotLE boats)
    intro a a' haa b hb b' hb'
    simp only [id, Option.mem_def] at hb hb'
    subst hb hb'
    exact haa

/-! ## Uniqueness of names -/

theorem liveBoats_none (rest : List (Option Boat)) : liveBoats (none :: rest) = liveBoats rest := by
  simp [liveBoats]

theorem liveBoats_some (b : Boat) (rest : List (Option Boat)) :
    liveBoats (some b :: rest) = b :: liveBoats rest := by
  simp [liveBoats]

theorem mem_liveBoats (b : Boat) (boats : List (Option Boat)) :
    b ∈ liveBoats boats ↔ some b ∈ boats := by
  simp [liveBoats]

/-- C5, refuted as stated: two `addBoat` calls with names that differ in case
only leave two live records whose names compare equal, although the empty
store has unique names. -/
theorem addBoat_not_unique :
    UniqueNames emptyStore ∧
      ¬ UniqueNames
        (addBoat (bob 0) [] (some (cstr "BOB,30,land,A,0"))
          (addBoat (bob 0) [] (some (cstr "Bob,20,slip,7,100")) emptyStore)) := by
  unfold UniqueNames
  decide

theorem uniqueNames_none (rest : List (Option Boat)) :
    UniqueNames (none :: rest) ↔ UniqueNames rest := by
  simp [UniqueNames, liveBoats_none]

theorem uniqueNames_some (b : Boat) (rest : List (Option Boat)) :
    UniqueNames (some b :: rest) ↔
      (∀ b', some b' ∈ rest → strcasecmp b.name b'.name ≠ 0) ∧ UniqueNames rest := by
  simp [UniqueNames, liveBoats_some, mem_liveBoats]

/-- When the names of a store are unique, every live record that matches a name
is the record that the lookup of the name finds. -/
theorem firstMatch_of_unique (name : CString) (boats : List (Option Boat)) (b : Boat)
    (hu : UniqueNames boats) (hb : some b ∈ boats) (hn : strcasecmp b.name name = 0) :
    ∃ i, FirstMatch name boats i b := by
  induction boats with
  | nil => simp at hb
  | cons x rest ih =>
    cases x with
    | none =>
      have hb' : some b ∈ rest := by simpa using hb
      obtain ⟨i, h1, h2, h3⟩ := ih ((uniqueNames_none rest).1 hu) hb'
      refine ⟨i + 1, by simpa using h1, h2, ?_⟩
      intro j hj b' hb''
      cases j with
      | zero => simp at hb''
      | succ k => exact h3 k (by omega) b' (by simpa using hb'')
    | some a =>
      obtain ⟨hur, hu'⟩ := (uniqueNames_some a rest).1 hu
      rcases List.mem_cons.1 hb with h | h
      · have hab : b = a := by simpa using h
        subst hab
        exact ⟨0, by simp, hn, by intro j hj; omega⟩
      · have ha : strcasecmp a.name name ≠ 0 := by
          intro ha0
          exact hur b h (strcasecmp_eq_zero_of_common _ _ name ha0 hn)
        obtain ⟨i, h1, h2, h3⟩ := ih hu' h
        refine ⟨i + 1, by simpa using h1, h2, ?_⟩
        intro j hj b' hb''
        cases j with
        | zero =>
          have hcb : a = b' := by simpa using hb''
          subst hcb
          exact ha
        | succ k => exact h3 k (by omega) b' (by simpa using hb'')

/-- Uniqueness depends on the names of the live records only. -/
theorem uniqueNames_iff_names (boats : List (Option Boat)) :
    UniqueNames boats ↔
      ((liveBoats boats).map Boat.name).Pairwise (fun a b => strcasecmp a b ≠ 0) := by
  simp [UniqueNames, List.pairwise_map]

theorem uniqueNames_of_perm (boats boats' : List (Option Boat))
    (hp : (liveBoats boats').Perm (liveBoats boats)) (h : UniqueNames boats) :
    UniqueNames boats' := by
  unfold UniqueNames at h ⊢
  refine (List.Perm.pairwise_iff ?_ hp).2 h
  intro a b hab hba
  apply hab
  rw [strcasecmp_antisymm b.name a.name, hba]
  rfl

theorem removeBoat_sublist (name : CString) (boats : List (Option Boat)) :
    (liveBoats (removeBoat name boats).1).Sublist (liveBoats boats) := by
  induction boats with
  | nil => exact List.Sublist.refl _
  | cons x rest ih =>
    cases x with
    | none => simpa [removeBoat, liveBoats_none] using ih
    | some b =>
      by_cases hb : strcasecmp b.name name = 0
      · simp [removeBoat, hb, liveBoats_none, liveBoats_some]
      · simpa [removeBoat, hb, liveBoats_some] using ih

theorem acceptPayment_names (name : CString) (amount : ℚ) (boats : List (Option Boat)) :
    (liveBoats (acceptPayment name amount boats).1).map Boat.name
      = (liveBoats boats).map Boat.name := by
  induction boats with
  | nil => rfl
  | cons x rest ih =>
    cases x with
    | none => simpa [acceptPayment, liveBoats_none] using ih
    | some b =>
      by_cases hb : strcasecmp b.name name = 0
      · by_cases ha : amount > b.amountOwed
        · simp [acceptPayment, hb, ha]
        · simp [acceptPayment, hb, ha, liveBoats_some]
      · simpa [acceptPayment, hb, liveBoats_some] using ih

theorem updateAmountOwed_names (boats : List (Option Boat)) :
    (liveBoats (updateAmountOwed boats)).map Boat.name = (liveBoats boats).map Boat.name := by
  induction boats with
  | nil => rfl
  | cons x rest ih =>
    cases x with
    | none => simpa [updateAmountOwed, liveBoats_none] using ih
    | some b => simpa [updateAmountOwed, liveBoats_some] using ih

/-- The record goes into the store when a slot is empty; a full store stays as it is. -/
theorem insertBoat_live (boat : Boat) (boats : List (Option Boat)) :
    (liveCount boats < boats.length ∧
        (liveBoats (insertBoat boat boats)).Perm (boat :: liveBoats boats)) ∨
      (liveCount boats = boats.length ∧ insertBoat boat boats = boats) := by
  induction boats with
  | nil => right; exact ⟨rfl, rfl⟩
  | cons x rest ih =>
    cases x with
    | none =>
      left
      refine ⟨?_, ?_⟩
      · have hle : liveCount rest ≤ rest.length := by
          simpa [liveCount, liveBoats] using List.length_filterMap_le id rest
        simp only [liveCount, liveBoats_none, List.length_cons] at hle ⊢
        omega
      · simp [insertBoat, liveBoats_none, liveBoats_some]
    | some b =>
      rcases ih with ⟨hlt, hp⟩ | ⟨heq, hi⟩
      · left
        refine ⟨?_, ?_⟩
        · simp only [liveCount, liveBoats_some, List.length_cons] at hlt ⊢
          omega
        · simp only [insertBoat, liveBoats_some]
          exact (hp.cons b).trans (List.Perm.swap boat b _)
      · right
        refine ⟨?_, ?_⟩
        · simp only [liveCount, liveBoats_some, List.length_cons] at heq ⊢
          omega
        · simp [insertBoat, hi]

/-- C5, as amended. The empty store has unique names, and uniqueness is kept by
`removeBoat`, `acceptPayment`, `updateAmountOwed` and `printInventory`, and by
`addBoat` when the name it reads matches no live record ignoring case. -/
theorem uniqueNames_preserved :
    UniqueNames emptyStore ∧
    ∀ boats : List (Option Boat), UniqueNames boats →
      (∀ name, UniqueNames (removeBoat name boats).1) ∧
      (∀ name amount, UniqueNames (acceptPayment name amount boats).1) ∧
      UniqueNames (updateAmountOwed boats) ∧
      UniqueNames (printInventory boats).1 ∧
      (∀ fresh type csv,
        (∀ b, some b ∈ boats → strcasecmp (readBoat fresh type csv).name b.name ≠ 0) →
          UniqueNames (addBoat fresh type (some csv) boats)) := by
  refine ⟨?_, ?_⟩
  · unfold UniqueNames
    decide
  intro boats h
  refine ⟨?_, ?_, ?_, ?_, ?_⟩
  · intro name
    exact List.Pairwise.sublist (removeBoat_sublist name boats) h
  · intro name amount
    rw [uniqueNames_iff_names, acceptPayment_names, ← uniqueNames_iff_names]
    exact h
  · rw [uniqueNames_iff_names, updateAmountOwed_names, ← uniqueNames_iff_names]
    exact h
  · refine uniqueNames_of_perm boats _ ?_ h
    exact (qsort_perm boats).filterMap id
  · intro fresh type csv hnew
    simp only [addBoat]
    rcases insertBoat_live (readBoat fresh type csv) boats with ⟨_, hp⟩ | ⟨_, he⟩
    · unfold UniqueNames at h ⊢
      refine (List.Perm.pairwise_iff ?_ hp).2 (List.pairwise_cons.2 ⟨?_, h⟩)
      · intro a b hab hba
        apply hab
        rw [strcasecmp_antisymm b.name a.name, hba]
        rfl
      · intro b hb
        exact hnew b ((mem_liveBoats b boats).1 hb)
    · rw [he]
      exact h

theorem uniqueNames_paymentStore (owed : ℚ) : UniqueNames (paymentStore owed) := by
  have h : liveBoats (paymentStore owed) = [bob owed] := rfl
  simp [UniqueNames, h]

/-- C5 as amended, at a store with one record: adding a record named Carl. -/
theorem uniqueNames_preserved_witness :
    UniqueNames (paymentStore 100) ∧
      UniqueNames (addBoat (bob 0) [] (some (cstr "Carl,12,trailer,XY12,0")) (paymentStore 100)) :=
  ⟨uniqueNames_paymentStore 100,
    (uniqueNames_preserved.2 (paymentStore 100) (uniqueNames_paymentStore 100)).2.2.2.2
      (bob 0) [] (cstr "Carl,12,trailer,XY12,0") (by
        intro b hb
        have hb' : b ∈ liveBoats (paymentStore 100) := (mem_liveBoats b _).2 hb
        have hl : liveBoats (paymentStore 100) = [bob 100] := rfl
        rw [hl, List.mem_singleton] at hb'
        subst hb'
        decide)⟩

/-! ## Capacity -/

theorem insertBoat_length (boat : Boat) (boats : List (Option Boat)) :
    (insertBoat boat boats).length = boats.length := by
  induction boats with
  | nil => rfl
  | cons x rest ih => cases x <;> simp [insertBoat, ih]

theorem liveCount_insertBoat (boat : Boat) (boats : List (Option Boat))
    (h : liveCount boats < boats.length) :
    liveCount (insertBoat boat boats) = liveCount boats + 1 := by
  rcases insertBoat_live boat boats with ⟨_, hp⟩ | ⟨heq, _⟩
  · simpa [liveCount] using hp.length_eq
  · omega

theorem liveCount_addBoats (inputs : List (Boat × CString × CString))
    (boats : List (Option Boat)) (h : liveCount boats + inputs.length ≤ boats.length) :
    liveCount (addBoats inputs boats) = liveCount boats + inputs.length := by
  induction inputs generalizing boats with
  | nil => rfl
  | cons x rest ih =>
    simp only [List.length_cons] at h
    have h1 : liveCount (insertBoat (readBoat x.1 x.2.1 x.2.2) boats) = liveCount boats + 1 :=
      liveCount_insertBoat _ _ (by omega)
    have h2 := ih (insertBoat (readBoat x.1 x.2.1 x.2.2) boats)
      (by rw [h1, insertBoat_length]; omega)
    simp only [addBoats, List.foldl_cons, addBoat, List.length_cons] at h2 ⊢
    rw [h2, h1]
    omega

/-- C6. From the empty store, each of 120 successive `addBoat` calls adds a
record, so that `k` records are live after `k` calls and 120 after all; and
`addBoat` on a store of `MAX_BOATS` slots that are all live returns the store
unchanged, with its 120 records. -/
theorem addBoat_capacity :
    (∀ inputs : List (Boat × CString × CString), inputs.length = MAX_BOATS →
      ∀ k, k ≤ MAX_BOATS → liveCount (addBoats (inputs.take k) emptyStore) = k) ∧
    (∀ boats : List (Option Boat), boats.length = MAX_BOATS → liveCount boats = MAX_BOATS →
      ∀ fresh type csvData, addBoat fresh type csvData boats = boats ∧
        liveCount (addBoat fresh type csvData boats) = 120) := by
  refine ⟨?_, ?_⟩
  · intro inputs hlen k hk
    have hempty : liveCount emptyStore = 0 := by decide
    have htake : (inputs.take k).length = k := by
      rw [List.length_take]
      omega
    have h := liveCount_addBoats (inputs.take k) emptyStore (by
      rw [hempty, htake]
      simpa [emptyStore] using hk)
    rw [h, hempty, htake]
    omega
  · intro boats hlen hfull fresh type csvData
    have hsame : addBoat fresh type csvData boats = boats := by
      cases csvData with
      | none => rfl
      | some csv =>
        rcases insertBoat_live (readBoat fresh type csv) boats with ⟨hlt, _⟩ | ⟨_, he⟩
        · omega
        · exact he
    rw [hsame]
    exact ⟨rfl, hfull⟩

/-- C6, at a concrete input: 120 calls with the same text fill the store, and one
more call leaves a full store as it is. -/
theorem addBoat_capacity_witness :
    liveCount
        (addBoats (List.replicate 120 (bob 0, [], cstr "Bob,20,slip,7,100")) emptyStore) = 120 ∧
      addBoat (bob 0) [] (some (cstr "Carl,12,trailer,XY12,0"))
          (List.replicate 120 (some (bob 100)))
        = List.replicate 120 (some (bob 100)) := by
  refine ⟨?_, ?_⟩
  · have h := addBoat_capacity.1 (List.replicate 120 (bob 0, [], cstr "Bob,20,slip,7,100"))
      (by simp [MAX_BOATS]) 120 (by simp [MAX_BOATS])
    rwa [List.take_of_length_le (by simp)] at h
  · exact (addBoat_capacity.2 (List.replicate 120 (some (bob 100))) (by simp [MAX_BOATS])
      (by simp [liveCount, liveBoats, MAX_BOATS, List.filterMap_replicate]) (bob 0) []
      (some (cstr "Carl,12,trailer,XY12,0"))).1

/-! ## Removal -/

/-- C7. `removeBoat` with a name that no live record matches reports that no
boat has that name and returns the store unchanged, with as many live records
as before. -/
theorem removeBoat_notFound (boats : List (Option Boat)) (name : CString)
    (h : ∀ b, some b ∈ boats → strcasecmp b.name name ≠ 0) :
    removeBoat name boats = (boats, RemoveResult.notFound) ∧
      liveCount (removeBoat name boats).1 = liveCount boats := by
  have key : removeBoat name boats = (boats, RemoveResult.notFound) := by
    induction boats with
    | nil => rfl
    | cons x rest ih =>
      have hrest : ∀ b, some b ∈ rest → strcasecmp b.name name ≠ 0 :=
        fun b hb => h b (List.mem_cons_of_mem _ hb)
      cases x with
      | none => simp [removeBoat, ih hrest]
      | some a =>
        have ha : strcasecmp a.name name ≠ 0 := h a (List.mem_cons_self _ _)
        simp [removeBoat, ha, ih hrest]
  rw [key]
  exact ⟨rfl, rfl⟩

/-- C7, at the example of the specification: no record is named "nonexistent". -/
theorem removeBoat_notFound_witness :
    removeBoat (cstr "nonexistent") (paymentStore 100)
        = (paymentStore 100, RemoveResult.notFound) ∧
      liveCount (removeBoat (cstr "nonexistent") (paymentStore 100)).1
        = liveCount (paymentStore 100) :=
  removeBoat_notFound (paymentStore 100) (cstr "nonexistent") (by
    intro b hb
    have hb' : b ∈ liveBoats (paymentStore 100) := (mem_liveBoats b _).2 hb
    have hl : liveBoats (paymentStore 100) = [bob 100] := rfl
    rw [hl, List.mem_singleton] at hb'
    subst hb'
    decide)

theorem removeBoat_firstMatch (boats : List (Option Boat)) (name : CString) (i : Nat) (b : Boat)
    (h : FirstMatch name boats i b) :
    removeBoat name boats = (boats.set i none, RemoveResult.removed) := by
  induction boats generalizing i with
  | nil => simp [FirstMatch] at h
  | cons x rest ih =>
    cases x with
    | none =>
      obtain ⟨j, hij, hj⟩ := firstMatch_cons_none h
      subst hij
      simp [removeBoat, ih j hj]
    | some a =>
      rcases firstMatch_cons_some h with ⟨ha, hi0, _⟩ | ⟨ha, j, hij, hj⟩
      · subst hi0
        simp [removeBoat, ha]
      · subst hij
        simp [removeBoat, ha, ih j hj]

theorem liveCount_set_none (boats : List (Option Boat)) (i : Nat) (b : Boat)
    (h : boats[i]? = some (some b)) : liveCount (boats.set i none) + 1 = liveCount boats := by
  induction boats generalizing i with
  | nil => simp at h
  | cons x rest ih =>
    cases i with
    | zero =>
      have hx : x = some b := by simpa using h
      subst hx
      simp [liveCount, liveBoats_none, liveBoats_some]
    | succ j =>
      have hj : rest[j]? = some (some b) := by simpa using h
      have := ih j hj
      cases x with
      | none => simpa [liveCount, liveBoats_none] using this
      | some a =>
        simp only [liveCount, List.set_cons_succ, liveBoats_some, List.length_cons] at this ⊢
        omega

theorem no_match_after_remove (boats : List (Option Boat)) (name : CString) (i : Nat) (b : Boat)
    (h : FirstMatch name boats i b) (hu : UniqueNames boats) :
    ∀ b', some b' ∈ boats.set i none → strcasecmp b'.name name ≠ 0 := by
  induction boats generalizing i with
  | nil => simp [FirstMatch] at h
  | cons x rest ih =>
    cases x with
    | none =>
      obtain ⟨j, hij, hj⟩ := firstMatch_cons_none h
      subst hij
      intro b' hb'
      have hb'' : some b' ∈ rest.set j none := by simpa using hb'
      exact ih j hj ((uniqueNames_none rest).1 hu) b' hb''
    | some a =>
      obtain ⟨hur, hu'⟩ := (uniqueNames_some a rest).1 hu
      rcases firstMatch_cons_some h with ⟨ha, hi0, hba⟩ | ⟨ha, j, hij, hj⟩
      · subst hi0 hba
        intro b' hb' hb0
        have hb'' : some b' ∈ rest := by simpa using hb'
        exact hur b' hb'' (strcasecmp_eq_zero_of_common _ _ name ha hb0)
      · subst hij
        intro b' hb'
        rcases List.mem_cons.1 (by simpa using hb' : some b' ∈ some a :: rest.set j none)
          with hb'' | hb''
        · have hab : b' = a := by simpa using hb''
          subst hab
          exact ha
        · exact ih j hj hu' b' hb''

/-- C8. `removeBoat` with a name that some live record matches ignoring case
succeeds: the lowest-indexed matching slot `i` becomes empty and every other
slot stays as it was, one live record fewer remains, and when the names of the
store were unique no live record matches the name afterwards. -/
theorem removeBoat_found (boats : List (Option Boat)) (name : CString)
    (h : ∃ a, some a ∈ boats ∧ strcasecmp a.name name = 0) :
    ∃ i b, FirstMatch name boats i b ∧
      (removeBoat name boats).2 = RemoveResult.removed ∧
      (removeBoat name boats).1 = boats.set i none ∧
      (removeBoat name boats).1[i]? = some none ∧
      (∀ j, j ≠ i → (removeBoat name boats).1[j]? = boats[j]?) ∧
      liveCount (removeBoat name boats).1 + 1 = liveCount boats ∧
      (UniqueNames boats →
        ∀ b', some b' ∈ (removeBoat name boats).1 → strcasecmp b'.name name ≠ 0) := by
  obtain ⟨a, ha, hn⟩ := h
  obtain ⟨i, b, hfm⟩ := exists_firstMatch name boats a ha hn
  have hr := removeBoat_firstMatch boats name i b hfm
  have hi : i < boats.length := by
    have := hfm.1
    exact (List.getElem?_eq_some_iff.1 this).1
  refine ⟨i, b, hfm, ?_, ?_, ?_, ?_, ?_, ?_⟩
  · rw [hr]
  · rw [hr]
  · rw [hr]
    simp [hi]
  · intro j hj
    rw [hr]
    simp [List.getElem?_set_ne (Ne.symm hj)]
  · rw [hr]
    exact liveCount_set_none boats i b hfm.1
  · intro hu
    rw [hr]
    exact no_match_after_remove boats name i b hfm hu

/-- C8, at the example of the claim: "BOB" removes the record named "Bob". -/
theorem removeBoat_found_witness :
    (∃ a, some a ∈ paymentStore 100 ∧ strcasecmp a.name (cstr "BOB") = 0) ∧
      ∃ i b, FirstMatch (cstr "BOB") (paymentStore 100) i b ∧
        (removeBoat (cstr "BOB") (paymentStore 100)).2 = RemoveResult.removed ∧
        (removeBoat (cstr "BOB") (paymentStore 100)).1 = (paymentStore 100).set i none ∧
        (removeBoat (cstr "BOB") (paymentStore 100)).1[i]? = some none ∧
        (∀ j, j ≠ i → (removeBoat (cstr "BOB") (paymentStore 100)).1[j]? = (paymentStore 100)[j]?) ∧
        liveCount (removeBoat (cstr "BOB") (paymentStore 100)).1 + 1
          = liveCount (paymentStore 100) ∧
        (UniqueNames (paymentStore 100) →
          ∀ b', some b' ∈ (removeBoat (cstr "BOB") (paymentStore 100)).1 →
            strcasecmp b'.name (cstr "BOB") ≠ 0) :=
  ⟨⟨bob 100, (mem_liveBoats _ _).1 (by
      have hl : liveBoats (paymentStore 100) = [bob 100] := rfl
      rw [hl]
      exact List.mem_singleton.2 rfl), (paymentStore_firstMatch 100).2.1⟩,
    removeBoat_found (paymentStore 100) (cstr "BOB")
      ⟨bob 100, (mem_liveBoats _ _).1 (by
        have hl : liveBoats (paymentStore 100) = [bob 100] := rfl
        rw [hl]
        exact List.mem_singleton.2 rfl), (paymentStore_firstMatch 100).2.1⟩⟩

/-! ## Type names and payloads -/

theorem strcmp_eq_zero_iff (a b : CString) : strcmp a b = 0 ↔ a = b := by
  induction a generalizing b with
  | nil =>
    cases b with
    | nil => simp [strcmp]
    | cons y ys =>
      have hy := y.2
      simp only [strcmp]
      constructor
      · intro h; omega
      · intro h; cases h
  | cons x xs ih =>
    have hx := x.2
    cases b with
    | nil =>
      simp only [strcmp]
      constructor
      · intro h; omega
      · intro h; cases h
    | cons y ys =>
      simp only [strcmp]
      by_cases hxy : x.val = y.val
      · have hxy' : x = y := Subtype.ext hxy
        subst hxy'
        simp [ih]
      · have hne : x ≠ y := fun e => hxy (congrArg Subtype.val e)
        simp only [hxy, if_false]
        constructor
        · intro h; omega
        · intro h
          exact absurd (List.cons.inj h).1 hne

/-- C10. `getBoatType` maps "slip", "land", "trailer" and "storage" to `SLIP`,
`LAND`, `TRAILER` and `STORAGE`, these texts only, and every other text to
`NO_PLACE`, among them "Slip" and the empty text. -/
theorem getBoatType_spec :
    (∀ s : CString,
      (getBoatType s = BoatType.SLIP ↔ s = cstr "slip") ∧
      (getBoatType s = BoatType.LAND ↔ s = cstr "land") ∧
      (getBoatType s = BoatType.TRAILER ↔ s = cstr "trailer") ∧
      (getBoatType s = BoatType.STORAGE ↔ s = cstr "storage") ∧
      (getBoatType s = BoatType.NO_PLACE ↔
        s ≠ cstr "slip" ∧ s ≠ cstr "land" ∧ s ≠ cstr "trailer" ∧ s ≠ cstr "storage")) ∧
    getBoatType (cstr "Slip") = BoatType.NO_PLACE ∧
    getBoatType (cstr "") = BoatType.NO_PLACE := by
  refine ⟨?_, by decide, by decide⟩
  intro s
  have d1 : cstr "slip" ≠ cstr "land" := by decide
  have d2 : cstr "slip" ≠ cstr "trailer" := by decide
  have d3 : cstr "slip" ≠ cstr "storage" := by decide
  have d4 : cstr "land" ≠ cstr "trailer" := by decide
  have d5 : cstr "land" ≠ cstr "storage" := by decide
  have d6 : cstr "trailer" ≠ cstr "storage" := by decide
  unfold getBoatType
  simp only [strcmp_eq_zero_iff]
  by_cases h1 : s = cstr "slip"
  · subst h1
    simp [d1, d2, d3]
  · by_cases h2 : s = cstr "land"
    · subst h2
      simp [d4, d5, d1.symm]
    · by_cases h3 : s = cstr "trailer"
      · subst h3
        simp [d6, d2.symm, d4.symm]
      · by_cases h4 : s = cstr "storage"
        · subst h4
          simp [d3.symm, d5.symm, d6.symm]
        · simp [h1, h2, h3, h4]

/-! ## Scanning what was printed -/

theorem bytes_injective {a b : CString} (h : bytes a = bytes b) : a = b :=
  (List.map_injective_iff.2 Subtype.val_injective) h

theorem span_all {p : CChar → Bool} (l : CString) (h : ∀ c ∈ l, p c = true) :
    l.span p = (l, []) := by
  rw [List.span_eq_take_drop]
  have h1 : l.takeWhile p = l := List.takeWhile_eq_self_iff.2 h
  have h2 : l.dropWhile p = [] := List.dropWhile_eq_nil_iff.2 h
  rw [h1, h2]

theorem span_stop {p : CChar → Bool} (l : CString) (c : CChar) (rest : CString)
    (h : ∀ a ∈ l, p a = true) (hc : p c = false) :
    (l ++ c :: rest).span p = (l, c :: rest) := by
  rw [List.span_eq_take_drop, List.takeWhile_append_of_pos h, List.dropWhile_append_of_pos h]
  simp [hc]

theorem scanSet_field (field rest : CString) (hne : field ≠ [])
    (hf : ∀ c ∈ field, c.val ≠ 44) :
    scanSet (field ++ comma :: rest) = some (field, comma :: rest) := by
  have h1 : ∀ c ∈ field, notComma c = true := by
    intro c hc
    simpa [notComma] using hf c hc
  have h2 : notComma comma = false := by decide
  unfold scanSet
  rw [span_stop field comma rest h1 h2]
  cases field with
  | nil => exact absurd rfl hne
  | cons x xs => rfl

theorem scanComma_comma (rest : CString) : scanComma (comma :: rest) = some rest := rfl

theorem isdigit_digitChar (d : Nat) : isdigit (digitChar d) = true := by
  simp only [isdigit, digitChar, Bool.and_eq_true, decide_eq_true_eq]
  omega

theorem natDigits_acc (fuel n : Nat) (acc : CString) :
    natDigits fuel n acc = natDigits fuel n [] ++ acc := by
  induction fuel generalizing n acc with
  | zero => rfl
  | succ f ih =>
    simp only [natDigits]
    split
    · rfl
    · rw [ih (n / 10) (digitChar n :: acc), ih (n / 10) [digitChar n]]
      simp

theorem natDigits_isdigit (fuel n : Nat) : ∀ c ∈ natDigits fuel n [], isdigit c = true := by
  induction fuel generalizing n with
  | zero => intro c hc; simp [natDigits] at hc
  | succ f ih =>
    intro c hc
    simp only [natDigits] at hc
    split at hc
    · rw [List.mem_singleton] at hc
      subst hc
      exact isdigit_digitChar n
    · rw [natDigits_acc, List.mem_append, List.mem_singleton] at hc
      rcases hc with hc | hc
      · exact ih (n / 10) c hc
      · subst hc
        exact isdigit_digitChar n

theorem natDigits_ne_nil (fuel n : Nat) (h : n < fuel) : natDigits fuel n [] ≠ [] := by
  cases fuel with
  | zero => omega
  | succ f =>
    simp only [natDigits]
    split
    · simp
    · rw [natDigits_acc]
      simp

theorem digitsValue_append (ds : CString) (d : CChar) :
    digitsValue (ds ++ [d]) = 10 * digitsValue ds + (d.val - 48) := by
  simp [digitsValue, List.foldl_append]

theorem natDigits_value (fuel n : Nat) (h : n < fuel) : digitsValue (natDigits fuel n []) = n := by
  induction fuel generalizing n with
  | zero => omega
  | succ f ih =>
    simp only [natDigits]
    split
    · next hlt =>
      simp only [digitsValue, List.foldl_cons, List.foldl_nil, digitChar]
      omega
    · next hge =>
      rw [natDigits_acc, digitsValue_append, ih (n / 10) (by omega)]
      simp only [digitChar]
      omega

theorem scanInt_digits (ds : CString) (hne : ds ≠ []) (hd : ∀ c ∈ ds, isdigit c = true) :
    scanInt ds = some ((digitsValue ds : Int), []) ∧
      scanInt (⟨45, by decide⟩ :: ds) = some (-(digitsValue ds : Int), []) := by
  cases ds with
  | nil => exact absurd rfl hne
  | cons d t =>
    have hdd := hd d (List.mem_cons_self _ _)
    simp only [isdigit, Bool.and_eq_true, decide_eq_true_eq] at hdd
    have hsp : isspace d = false := by
      simp only [isspace, Bool.or_eq_false_iff, Bool.and_eq_false_iff, decide_eq_false_iff_not]
      omega
    have h45 : ¬ d.val = 45 := by omega
    have h43 : ¬ d.val = 43 := by omega
    have hm : isspace (⟨45, by decide⟩ : CChar) = false := by decide
    have hdrop : (d :: t).dropWhile isspace = d :: t := by
      simp [List.dropWhile_cons, hsp]
    have hdropm : ((⟨45, by decide⟩ : CChar) :: d :: t).dropWhile isspace
        = (⟨45, by decide⟩ : CChar) :: d :: t := by
      rw [List.dropWhile_cons_of_neg (by rw [hm]; decide)]
    have hsign : scanSign (d :: t) = (false, d :: t) := by
      simp [scanSign, h45, h43]
    have hsignm : scanSign ((⟨45, by decide⟩ : CChar) :: d :: t) = (true, d :: t) := by
      simp [scanSign]
    refine ⟨?_, ?_⟩
    · unfold scanInt
      rw [hdrop, hsign]
      simp only []
      rw [span_all (d :: t) hd]
      simp
    · unfold scanInt
      rw [hdropm, hsignm]
      simp only []
      rw [span_all (d :: t) hd]
      simp

theorem scanInt_printInt (n : Int) : scanInt (printInt n) = some (n, []) := by
  have hne := natDigits_ne_nil (n.natAbs + 1) n.natAbs (by omega)
  have hd := natDigits_isdigit (n.natAbs + 1) n.natAbs
  have hv := natDigits_value (n.natAbs + 1) n.natAbs (by omega)
  obtain ⟨h1, h2⟩ := scanInt_digits _ hne hd
  unfold printInt
  split
  · rw [h2, hv]
    have : -(n.natAbs : Int) = n := by omega
    rw [this]
  · rw [h1, hv]
    have : (n.natAbs : Int) = n := by omega
    rw [this]

theorem printInt_ne_nil (n : Int) : printInt n ≠ [] := by
  unfold printInt
  split
  · simp
  · exact natDigits_ne_nil (n.natAbs + 1) n.natAbs (by omega)

theorem printInt_no_comma (n : Int) : ∀ c ∈ printInt n, c.val ≠ 44 := by
  have hd := natDigits_isdigit (n.natAbs + 1) n.natAbs
  have key : ∀ c ∈ natDigits (n.natAbs + 1) n.natAbs [], c.val ≠ 44 := by
    intro c hc
    have := hd c hc
    simp only [isdigit, Bool.and_eq_true, decide_eq_true_eq] at this
    omega
  intro c hc
  unfold printInt at hc
  split at hc
  · rcases List.mem_cons.1 hc with h | h
    · subst h
      decide
    · exact key c h
  · exact key c hc

/-! ## The round trip of a storage location -/

/-- The buffer `type` after `sscanf`, when the type is converted. -/
theorem sscanfBoat_type (line s4 ty s5 : CString) (boat : Boat) (type0 : CString)
    (hpre : ReadsNameAndLength line s4) (hty : scanSet s4 = some (ty, s5)) :
    (sscanfBoat line boat type0).2 = ty := by
  obtain ⟨name, s1, s2, len, s3, h1, h2, h3, h4⟩ := hpre
  unfold sscanfBoat
  simp only [h1, h2, h3, h4, hty]
  repeat (first | rfl | split)

/-- The union after `sscanf`, when the type and the payload are converted. -/
theorem sscanfBoat_info (line s4 ty s5 s6 tag s7 : CString) (boat : Boat) (type0 : CString)
    (hpre : ReadsNameAndLength line s4) (hty : scanSet s4 = some (ty, s5))
    (hc : scanComma s5 = some s6) (htag : scanSet s6 = some (tag, s7)) :
    (sscanfBoat line boat type0).1.info = { boat.info with trailerTag := tag } := by
  obtain ⟨name, s1, s2, len, s3, h1, h2, h3, h4⟩ := hpre
  unfold sscanfBoat
  simp only [h1, h2, h3, h4, hty, hc, htag]
  repeat (first | rfl | split)

theorem getBoatTypeStr_field (k : BoatType) :
    getBoatTypeStr k ≠ [] ∧ ∀ c ∈ getBoatTypeStr k, c.val ≠ 44 := by
  cases k <;> exact ⟨by decide, by decide⟩

theorem getBoatType_getBoatTypeStr (k : BoatType) : getBoatType (getBoatTypeStr k) = k := by
  cases k <;> decide

theorem fprintInfo_payloadText (b : Boat) (hwf : WellFormedPayload b)
    (hk : b.type ≠ BoatType.NO_PLACE) :
    fprintInfo b = bytes (payloadText b ++ [comma]) ∧ payloadText b ≠ [] ∧
      ∀ c ∈ payloadText b, c.val ≠ 44 := by
  obtain ⟨hc, hne⟩ := hwf
  unfold PayloadAsSpecified at hc
  unfold fprintInfo payloadText
  cases hb : b.type with
  | SLIP =>
    simp only [bytes, comma, List.map_append, List.map_cons, List.map_nil]
    exact ⟨trivial, printInt_ne_nil _, printInt_no_comma _⟩
  | LAND =>
    rw [hb] at hc
    simp only at hc
    have hpos : 0 < b.info.bayLetter := by omega
    simp only [hpos, dite_true, bytes, comma, List.map_append, List.map_cons, List.map_nil]
    refine ⟨rfl, by simp, ?_⟩
    intro c hc'
    rw [List.mem_singleton] at hc'
    subst hc'
    simp only
    omega
  | TRAILER =>
    rw [hb] at hc
    simp only [bytes, comma, List.map_append, List.map_cons, List.map_nil]
    exact ⟨trivial, hne hb, hc.2⟩
  | STORAGE =>
    simp only [bytes, comma, List.map_append, List.map_cons, List.map_nil]
    exact ⟨trivial, printInt_ne_nil _, printInt_no_comma _⟩
  | NO_PLACE => exact absurd hb hk

theorem setInfo_payloadText (b boat : Boat) (hwf : WellFormedPayload b)
    (ht : boat.type = b.type) (htag : boat.info.trailerTag = payloadText b)
    (hk : b.type ≠ BoatType.NO_PLACE) :
    (setInfo boat).type = b.type ∧ (setInfo boat).location = b.location := by
  obtain ⟨hc, hne⟩ := hwf
  unfold PayloadAsSpecified at hc
  unfold payloadText at htag
  cases hb : b.type with
  | SLIP =>
    rw [hb] at ht htag
    simp only at htag
    simp only [setInfo, ht, htag, scanInt_printInt, Boat.location, hb]
    exact ⟨trivial, trivial⟩
  | LAND =>
    rw [hb] at ht hc htag
    simp only at hc htag
    have hpos : 0 < b.info.bayLetter := by omega
    simp only [hpos, dite_true] at htag
    simp only [setInfo, ht, htag, Boat.location, hb]
    exact ⟨trivial, trivial⟩
  | TRAILER =>
    rw [hb] at ht htag
    simp only at htag
    simp only [setInfo, ht, htag, Boat.location, hb]
    exact ⟨trivial, trivial⟩
  | STORAGE =>
    rw [hb] at ht htag
    simp only at htag
    simp only [setInfo, ht, htag, scanInt_printInt, Boat.location, hb]
    exact ⟨trivial, trivial⟩
  | NO_PLACE => exact absurd hb hk

theorem setInfo_noPlace (boat : Boat) (ht : boat.type = BoatType.NO_PLACE) :
    (setInfo boat).type = BoatType.NO_PLACE ∧ (setInfo boat).location = StorageLocation.Unknown := by
  simp [setInfo, ht, Boat.location]

/-- C9, as amended. `getBoatType (getBoatTypeStr k) = k` for every kind `k`; and when
a record `b` has a well-formed payload (a slip or storage number, a bay letter,
a trailer tag of 1 to 19 characters without a comma), reading a line whose type
and payload fields are the type name of `b` and the payload as `saveData` writes
it yields a record of the same kind and payload. -/
theorem location_roundtrip :
    (∀ k, getBoatType (getBoatTypeStr k) = k) ∧
    (∀ (b fresh : Boat) (type0 line s4 post : CString),
      WellFormedPayload b → ReadsNameAndLength line s4 →
      bytes s4 = bytes (getBoatTypeStr b.type) ++ 44 :: (fprintInfo b ++ bytes post) →
        (readBoat fresh type0 line).type = b.type ∧
        (readBoat fresh type0 line).location = b.location) := by
  refine ⟨getBoatType_getBoatTypeStr, ?_⟩
  intro b fresh type0 line s4 post hwf hpre hs4
  obtain ⟨htne, htc⟩ := getBoatTypeStr_field b.type
  by_cases hk : b.type = BoatType.NO_PLACE
  · have hfp : fprintInfo b = [] := by simp [fprintInfo, hk]
    have hs : s4 = getBoatTypeStr b.type ++ comma :: post := by
      apply bytes_injective
      rw [hs4, hfp]
      simp [bytes, comma]
      rfl
    have hty := scanSet_field (getBoatTypeStr b.type) post htne htc
    rw [← hs] at hty
    have h2 := sscanfBoat_type line s4 _ _ fresh type0 hpre hty
    have hrb : readBoat fresh type0 line
        = setInfo { (sscanfBoat line fresh type0).1 with
            type := getBoatType (sscanfBoat line fresh type0).2 } := rfl
    rw [hrb, h2, getBoatType_getBoatTypeStr]
    have := setInfo_noPlace { (sscanfBoat line fresh type0).1 with type := b.type } hk
    rw [this.1, this.2]
    simp [Boat.location, hk]
  · obtain ⟨hfp, hpne, hpc⟩ := fprintInfo_payloadText b hwf hk
    have hs : s4 = getBoatTypeStr b.type ++ comma :: (payloadText b ++ comma :: post) := by
      apply bytes_injective
      rw [hs4, hfp]
      simp [bytes, comma]
      rfl
    have hty := scanSet_field (getBoatTypeStr b.type) (payloadText b ++ comma :: post) htne htc
    rw [← hs] at hty
    have htag := scanSet_field (payloadText b) post hpne hpc
    have h2 := sscanfBoat_type line s4 _ _ fresh type0 hpre hty
    have h1 := sscanfBoat_info line s4 _ _ _ _ _ fresh type0 hpre hty
      (scanComma_comma _) htag
    have hrb : readBoat fresh type0 line
        = setInfo { (sscanfBoat line fresh type0).1 with
            type := getBoatType (sscanfBoat line fresh type0).2 } := rfl
    rw [hrb, h2, getBoatType_getBoatTypeStr]
    exact setInfo_payloadText b _ hwf rfl (by simp [h1]) hk

theorem readsNameAndLength_example (rest : String) :
    ReadsNameAndLength (cstr "Bob,20.00," ++ cstr rest) (cstr rest) := by
  refine ⟨cstr "Bob", cstr ",20.00," ++ cstr rest, cstr "20.00," ++ cstr rest, 20,
    cstr "," ++ cstr rest, ?_, rfl, ?_, rfl⟩
  · exact scanSet_field (cstr "Bob") (cstr "20.00," ++ cstr rest) (by decide) (by decide)
  · have hsp : (cstr "20.00," ++ cstr rest).dropWhile isspace = cstr "20.00," ++ cstr rest := rfl
    have hsg : scanSign (cstr "20.00," ++ cstr rest) = (false, cstr "20.00," ++ cstr rest) := rfl
    have h1 : (cstr "20.00," ++ cstr rest).span isdigit
        = (cstr "20", cstr ".00," ++ cstr rest) :=
      span_stop (cstr "20") ⟨46, by decide⟩ (cstr "00," ++ cstr rest) (by decide) (by decide)
    have h2 : (cstr "00," ++ cstr rest).span isdigit = (cstr "00", cstr "," ++ cstr rest) :=
      span_stop (cstr "00") comma (cstr rest) (by decide) (by decide)
    have h3 : scanExponent (cstr "," ++ cstr rest) = some (false, 0, cstr "," ++ cstr rest) := rfl
    have h4 : cstr ".00," ++ cstr rest = (⟨46, by decide⟩ : CChar) :: (cstr "00," ++ cstr rest) :=
      rfl
    have hv : digitsValue (cstr "20") = 20 := by decide
    have hf : digitsValue (cstr "00") = 0 := by decide
    unfold scanFloat
    rw [hsp, hsg]
    simp only []
    rw [h1]
    simp only []
    rw [h4]
    simp only [if_true]
    rw [h2]
    have hne : ¬ (cstr "20" = [] ∧ cstr "00" = []) := by decide
    simp only [hne, if_false, h3, hv, hf]
    norm_num

/-- C9, refuted as stated: a trailer tag of no characters is a tag of at most 19
characters without a comma, and the record read from the line that `saveData`
writes for it does not have this tag; the tag of the block remains. -/
theorem location_roundtrip_empty_tag :
    PayloadAsSpecified emptyTagBoat ∧
      ReadsNameAndLength (cstr "Bob,20.00," ++ cstr "trailer,,0.00\n") (cstr "trailer,,0.00\n") ∧
      bytes (cstr "trailer,,0.00\n")
        = bytes (getBoatTypeStr emptyTagBoat.type)
            ++ 44 :: (fprintInfo emptyTagBoat ++ bytes (cstr "0.00\n")) ∧
      (readBoat (bob 0) [] (cstr "Bob,20.00," ++ cstr "trailer,,0.00\n")).location
        ≠ emptyTagBoat.location := by
  refine ⟨?_, readsNameAndLength_example "trailer,,0.00\n", by decide, by decide⟩
  simp [PayloadAsSpecified, emptyTagBoat]

/-- C9 as amended, at the record of slip 7: the line `Bob,20.00,slip,7,100.00`. -/
theorem location_roundtrip_witness :
    WellFormedPayload (bob 100) ∧
      ReadsNameAndLength (cstr "Bob,20.00," ++ cstr "slip,7,100.00\n") (cstr "slip,7,100.00\n") ∧
      bytes (cstr "slip,7,100.00\n")
        = bytes (getBoatTypeStr (bob 100).type)
            ++ 44 :: (fprintInfo (bob 100) ++ bytes (cstr "100.00\n")) ∧
      (readBoat emptyTagBoat [] (cstr "Bob,20.00," ++ cstr "slip,7,100.00\n")).location
        = StorageLocation.Slip 7 := by
  have hwf : WellFormedPayload (bob 100) := by
    refine ⟨?_, ?_⟩
    · simp [PayloadAsSpecified, bob]
    · intro h
      simp [bob] at h
  refine ⟨hwf, readsNameAndLength_example "slip,7,100.00\n", by decide, ?_⟩
  exact (location_roundtrip.2 (bob 100) emptyTagBoat [] _ _ (cstr "100.00\n") hwf
    (readsNameAndLength_example "slip,7,100.00\n") (by decide)).2

/-! ## The sign of what is owed -/

theorem monthlyRate_nonneg (k : BoatType) : 0 ≤ monthlyRate k := by
  cases k <;> norm_num [monthlyRate]

theorem nonNegative_none (rest : List (Option Boat)) :
    NonNegative (none :: rest) ↔ NonNegative rest := by
  simp [NonNegative]

theorem nonNegative_some (b : Boat) (rest : List (Option Boat)) :
    NonNegative (some b :: rest) ↔ (0 ≤ b.amountOwed ∧ 0 ≤ b.length) ∧ NonNegative rest := by
  simp [NonNegative]

theorem updateAmountOwed_nonNegative (boats : List (Option Boat)) (h : NonNegative boats) :
    NonNegative (updateAmountOwed boats) := by
  induction boats with
  | nil => exact h
  | cons x rest ih =>
    cases x with
    | none =>
      simp only [updateAmountOwed_eq_map] at ih ⊢
      simpa [nonNegative_none] using ih ((nonNegative_none rest).1 h)
    | some b =>
      obtain ⟨⟨h1, h2⟩, hr⟩ := (nonNegative_some b rest).1 h
      simp only [updateAmountOwed_eq_map] at ih ⊢
      simp only [List.map_cons, Option.map_some', nonNegative_some]
      refine ⟨⟨?_, h2⟩, ih hr⟩
      have := mul_nonneg (monthlyRate_nonneg b.type) h2
      simp only [charged]
      linarith

theorem acceptPayment_nonNegative (name : CString) (amount : ℚ) (boats : List (Option Boat))
    (h : NonNegative boats) : NonNegative (acceptPayment name amount boats).1 := by
  induction boats with
  | nil => exact h
  | cons x rest ih =>
    cases x with
    | none =>
      simpa [acceptPayment, nonNegative_none] using ih ((nonNegative_none rest).1 h)
    | some b =>
      obtain ⟨⟨h1, h2⟩, hr⟩ := (nonNegative_some b rest).1 h
      by_cases hb : strcasecmp b.name name = 0
      · by_cases ha : amount > b.amountOwed
        · simpa [acceptPayment, hb, ha] using h
        · simp only [acceptPayment, hb, ha, if_true, if_false, nonNegative_some]
          exact ⟨⟨by linarith [not_lt.1 ha], h2⟩, hr⟩
      · simp only [acceptPayment, hb, if_false, nonNegative_some]
        exact ⟨⟨h1, h2⟩, ih hr⟩

theorem removeBoat_nonNegative (name : CString) (boats : List (Option Boat))
    (h : NonNegative boats) : NonNegative (removeBoat name boats).1 := by
  intro b hb
  have h1 : b ∈ liveBoats (removeBoat name boats).1 := (mem_liveBoats b _).2 hb
  exact h b ((mem_liveBoats b boats).1 ((removeBoat_sublist name boats).subset h1))

/-! ## The sign of what is owed, over floats -/

theorem storeF_acceptPayment (name : CString) (amount : ℚ) (boats : List (Option Boat)) :
    (acceptPaymentF name (CFloat.num amount) (storeF boats)).1
      = storeF (acceptPayment name amount boats).1 := by
  induction boats with
  | nil => rfl
  | cons x rest ih =>
    cases x with
    | none =>
      simp only [storeF, List.map_cons, Option.map_none', acceptPaymentF, acceptPayment] at ih ⊢
      rw [ih]
    | some b =>
      simp only [storeF, List.map_cons, Option.map_some', acceptPaymentF, acceptPayment,
        Boat.toF, CFloat.gt, CFloat.sub] at ih ⊢
      by_cases hb : strcasecmp b.name name = 0
      · by_cases ha : amount > b.amountOwed
        · simp [hb, ha, Boat.toF]
        · simp [hb, ha, Boat.toF, CFloat.sub]
      · simp only [hb, if_false, List.map_cons, Option.map_some', Boat.toF]
        rw [ih]

theorem storeF_updateAmountOwed (boats : List (Option Boat)) :
    updateAmountOwedF (storeF boats) = storeF (updateAmountOwed boats) := by
  induction boats with
  | nil => rfl
  | cons x rest ih =>
    cases x with
    | none =>
      simp only [storeF, List.map_cons, Option.map_none', updateAmountOwedF,
        updateAmountOwed] at ih ⊢
      rw [ih]
    | some b =>
      simp only [storeF, List.map_cons, Option.map_some', updateAmountOwedF,
        updateAmountOwed] at ih ⊢
      rw [ih]
      cases hb : b.type <;> simp [Boat.toF, hb, CFloat.mul, CFloat.add]

theorem storeF_removeBoat (name : CString) (boats : List (Option Boat)) :
    (removeBoatF name (storeF boats)).1 = storeF (removeBoat name boats).1 := by
  induction boats with
  | nil => rfl
  | cons x rest ih =>
    cases x with
    | none =>
      simp only [storeF, List.map_cons, Option.map_none', removeBoatF, removeBoat] at ih ⊢
      rw [ih]
    | some b =>
      simp only [storeF, List.map_cons, Option.map_some', removeBoatF, removeBoat,
        Boat.toF] at ih ⊢
      by_cases hb : strcasecmp b.name name = 0
      · simp [hb, storeF]
      · simp only [hb, if_false, List.map_cons, Option.map_some', Boat.toF]
        rw [ih]

theorem finiteNonNegative_none (rest : List (Option BoatF)) :
    FiniteNonNegative (none :: rest) ↔ FiniteNonNegative rest := by
  simp [FiniteNonNegative]

theorem finiteNonNegative_some (b : BoatF) (rest : List (Option BoatF)) :
    FiniteNonNegative (some b :: rest) ↔
      ((∃ q : ℚ, b.amountOwed = CFloat.num q ∧ 0 ≤ q) ∧
        (∃ l : ℚ, b.length = CFloat.num l ∧ 0 ≤ l)) ∧ FiniteNonNegative rest := by
  simp [FiniteNonNegative]

theorem owedNonNegative_none (rest : List (Option BoatF)) :
    OwedNonNegative (none :: rest) ↔ OwedNonNegative rest := by
  simp [OwedNonNegative]

theorem owedNonNegative_some (b : BoatF) (rest : List (Option BoatF)) :
    OwedNonNegative (some b :: rest) ↔
      CFloat.ge b.amountOwed (CFloat.num 0) = true ∧ OwedNonNegative rest := by
  simp [OwedNonNegative]

theorem owedNonNegative_of_finite (boats : List (Option BoatF)) (h : FiniteNonNegative boats) :
    OwedNonNegative boats := by
  intro b hb
  obtain ⟨⟨q, hq, hq0⟩, _⟩ := h b hb
  rw [hq]
  simpa [CFloat.ge] using hq0

theorem updateAmountOwedF_finite (boats : List (Option BoatF)) (h : FiniteNonNegative boats) :
    FiniteNonNegative (updateAmountOwedF boats) := by
  induction boats with
  | nil => exact h
  | cons x rest ih =>
    cases x with
    | none =>
      simpa [updateAmountOwedF, finiteNonNegative_none] using
        ih ((finiteNonNegative_none rest).1 h)
    | some b =>
      obtain ⟨⟨⟨q, hq, hq0⟩, ⟨l, hl, hl0⟩⟩, hr⟩ := (finiteNonNegative_some b rest).1 h
      simp only [updateAmountOwedF, finiteNonNegative_some]
      refine ⟨⟨?_, ⟨l, hl, hl0⟩⟩, ih hr⟩
      have hrate := monthlyRate_nonneg b.type
      refine ⟨q + monthlyRate b.type * l, ?_, by
        have := mul_nonneg hrate hl0
        linarith⟩
      rw [hq, hl]
      cases hb : b.type <;> simp [CFloat.mul, CFloat.add, monthlyRate]

theorem acceptPaymentF_finite (name : CString) (amount : ℚ) (boats : List (Option BoatF))
    (h : FiniteNonNegative boats) :
    FiniteNonNegative (acceptPaymentF name (CFloat.num amount) boats).1 := by
  induction boats with
  | nil => exact h
  | cons x rest ih =>
    cases x with
    | none =>
      simpa [acceptPaymentF, finiteNonNegative_none] using
        ih ((finiteNonNegative_none rest).1 h)
    | some b =>
      obtain ⟨⟨⟨q, hq, hq0⟩, hlen⟩, hr⟩ := (finiteNonNegative_some b rest).1 h
      by_cases hb : strcasecmp b.name name = 0
      · by_cases ha : amount > q
        · have hgt : CFloat.gt (CFloat.num amount) b.amountOwed = true := by
            rw [hq]
            simpa [CFloat.gt] using ha
          simpa [acceptPaymentF, hb, hgt] using h
        · have hgt : CFloat.gt (CFloat.num amount) b.amountOwed = false := by
            rw [hq]
            simpa [CFloat.gt] using ha
          simp only [acceptPaymentF, hb, hgt, if_true, Bool.false_eq_true, if_false,
            finiteNonNegative_some]
          refine ⟨⟨⟨q - amount, ?_, by linarith [not_lt.1 ha]⟩, hlen⟩, hr⟩
          rw [hq]
          rfl
      · simp only [acceptPaymentF, hb, if_false, finiteNonNegative_some]
        exact ⟨⟨⟨q, hq, hq0⟩, hlen⟩, ih hr⟩

theorem removeBoatF_mem (name : CString) (boats : List (Option BoatF)) (b : BoatF)
    (hb : some b ∈ (removeBoatF name boats).1) : some b ∈ boats := by
  induction boats with
  | nil => simp [removeBoatF] at hb
  | cons x rest ih =>
    cases x with
    | none =>
      simp only [removeBoatF, List.mem_cons] at hb
      rcases hb with h | h
      · cases h
      · exact List.mem_cons_of_mem _ (ih h)
    | some a =>
      by_cases ha : strcasecmp a.name name = 0
      · simp only [removeBoatF, ha, if_true, List.mem_cons] at hb
        rcases hb with h | h
        · cases h
        · exact List.mem_cons_of_mem _ h
      · simp only [removeBoatF, ha, if_false, List.mem_cons] at hb
        rcases hb with h | h
        · rw [h]
          exact List.mem_cons_self _ _
        · exact List.mem_cons_of_mem _ (ih h)

theorem ge_zero_cases (x : CFloat) (h : CFloat.ge x (CFloat.num 0) = true) :
    (∃ q : ℚ, x = CFloat.num q ∧ 0 ≤ q) ∨ x = CFloat.posInf := by
  cases x with
  | num q => exact Or.inl ⟨q, rfl, by simpa [CFloat.ge] using h⟩
  | posInf => exact Or.inr rfl
  | negInf => simp [CFloat.ge] at h
  | nan => simp [CFloat.ge] at h

/-- The statements of lines 282 to 286 on what one record owes. -/
theorem pay_ge_zero (owed amount : CFloat) (h : CFloat.ge owed (CFloat.num 0) = true)
    (hnan : amount ≠ CFloat.nan) (hinf : amount = CFloat.posInf → owed ≠ CFloat.posInf) :
    CFloat.ge (if CFloat.gt amount owed then owed else CFloat.sub owed amount) (CFloat.num 0)
      = true := by
  rcases ge_zero_cases owed h with ⟨q, hq, hq0⟩ | hq
  · subst hq
    cases amount with
    | num a =>
      by_cases ha : a > q
      · simp [CFloat.gt, ha, CFloat.ge, hq0]
      · simp only [CFloat.gt, ha, decide_False, Bool.false_eq_true, if_false, CFloat.sub,
          CFloat.ge, decide_eq_true_eq]
        linarith [not_lt.1 ha]
    | posInf => simp [CFloat.gt, CFloat.ge, hq0]
    | negInf => simp [CFloat.gt, CFloat.sub, CFloat.ge]
    | nan => exact absurd rfl hnan
  · subst hq
    cases amount with
    | num a => simp [CFloat.gt, CFloat.sub, CFloat.ge]
    | posInf => exact absurd rfl (hinf rfl)
    | negInf => simp [CFloat.gt, CFloat.sub, CFloat.ge]
    | nan => exact absurd rfl hnan

/-- The statement of line 316 on what one record owes. -/
theorem charge_ge_zero (owed length : CFloat) (k : BoatType)
    (h : CFloat.ge owed (CFloat.num 0) = true) (hl : CFloat.ge length (CFloat.num 0) = true)
    (hk : k = BoatType.NO_PLACE → length ≠ CFloat.posInf) :
    CFloat.ge (CFloat.add owed (CFloat.mul (CFloat.num (monthlyRate k)) length)) (CFloat.num 0)
      = true := by
  have hrate := monthlyRate_nonneg k
  rcases ge_zero_cases length hl with ⟨l, hlq, hl0⟩ | hlq
  · subst hlq
    have hx : 0 ≤ monthlyRate k * l := mul_nonneg hrate hl0
    rcases ge_zero_cases owed h with ⟨q, hq, hq0⟩ | hq
    · subst hq
      simp only [CFloat.mul, CFloat.add, CFloat.ge, decide_eq_true_eq]
      linarith
    · subst hq
      simp [CFloat.mul, CFloat.add, CFloat.ge]
  · subst hlq
    have hpos : 0 < monthlyRate k := by
      cases k with
      | NO_PLACE => exact absurd rfl (hk rfl)
      | SLIP => norm_num [monthlyRate]
      | LAND => norm_num [monthlyRate]
      | TRAILER => norm_num [monthlyRate]
      | STORAGE => norm_num [monthlyRate]
    rcases ge_zero_cases owed h with ⟨q, hq, hq0⟩ | hq
    · subst hq
      simp [CFloat.mul, CFloat.timesInf, hpos, CFloat.add, CFloat.ge]
    · subst hq
      simp [CFloat.mul, CFloat.timesInf, hpos, CFloat.add, CFloat.ge]

theorem nonNegativeF_none (rest : List (Option BoatF)) :
    NonNegativeF (none :: rest) ↔ NonNegativeF rest := by
  simp [NonNegativeF]

theorem nonNegativeF_some (b : BoatF) (rest : List (Option BoatF)) :
    NonNegativeF (some b :: rest) ↔
      (CFloat.ge b.amountOwed (CFloat.num 0) = true ∧ CFloat.ge b.length (CFloat.num 0) = true)
        ∧ NonNegativeF rest := by
  simp [NonNegativeF]

theorem owedNonNegative_of_nonNegativeF (boats : List (Option BoatF)) (h : NonNegativeF boats) :
    OwedNonNegative boats :=
  fun b hb => (h b hb).1

theorem updateAmountOwedF_owed (boats : List (Option BoatF)) (h : NonNegativeF boats)
    (hk : ∀ b, some b ∈ boats → b.type = BoatType.NO_PLACE → b.length ≠ CFloat.posInf) :
    OwedNonNegative (updateAmountOwedF boats) := by
  induction boats with
  | nil => exact owedNonNegative_of_nonNegativeF _ h
  | cons x rest ih =>
    have hkrest : ∀ b, some b ∈ rest → b.type = BoatType.NO_PLACE → b.length ≠ CFloat.posInf :=
      fun b hb => hk b (List.mem_cons_of_mem _ hb)
    cases x with
    | none =>
      simpa [updateAmountOwedF, owedNonNegative_none] using
        ih ((nonNegativeF_none rest).1 h) hkrest
    | some b =>
      obtain ⟨⟨h1, h2⟩, hr⟩ := (nonNegativeF_some b rest).1 h
      simp only [updateAmountOwedF, owedNonNegative_some]
      refine ⟨?_, ih hr hkrest⟩
      have := charge_ge_zero b.amountOwed b.length b.type h1 h2 (hk b (List.mem_cons_self _ _))
      cases hb : b.type <;> simpa [hb, monthlyRate] using this

theorem acceptPaymentF_owed (name : CString) (amount : CFloat) (boats : List (Option BoatF))
    (h : NonNegativeF boats) (hnan : amount ≠ CFloat.nan)
    (hinf : amount = CFloat.posInf →
      ∀ b, some b ∈ boats → strcasecmp b.name name = 0 → b.amountOwed ≠ CFloat.posInf) :
    OwedNonNegative (acceptPaymentF name amount boats).1 := by
  induction boats with
  | nil => exact owedNonNegative_of_nonNegativeF _ h
  | cons x rest ih =>
    have hinfrest : amount = CFloat.posInf →
        ∀ b, some b ∈ rest → strcasecmp b.name name = 0 → b.amountOwed ≠ CFloat.posInf :=
      fun e b hb => hinf e b (List.mem_cons_of_mem _ hb)
    cases x with
    | none =>
      simpa [acceptPaymentF, owedNonNegative_none] using
        ih ((nonNegativeF_none rest).1 h) hinfrest
    | some b =>
      obtain ⟨⟨h1, _⟩, hr⟩ := (nonNegativeF_some b rest).1 h
      by_cases hb : strcasecmp b.name name = 0
      · have hpay := pay_ge_zero b.amountOwed amount h1 hnan
          (fun e => hinf e b (List.mem_cons_self _ _) hb)
        by_cases hgt : CFloat.gt amount b.amountOwed = true
        · simp only [acceptPaymentF, hb, hgt, if_true, owedNonNegative_some]
          exact ⟨h1, owedNonNegative_of_nonNegativeF _ hr⟩
        · have hgt' : CFloat.gt amount b.amountOwed = false := by simpa using hgt
          simp only [hgt', Bool.false_eq_true, if_false] at hpay
          simp only [acceptPaymentF, hb, hgt', if_true, Bool.false_eq_true, if_false,
            owedNonNegative_some]
          exact ⟨hpay, owedNonNegative_of_nonNegativeF _ hr⟩
      · simp only [acceptPaymentF, hb, if_false, owedNonNegative_some]
        exact ⟨h1, ih hr hinfrest⟩

/-- C12, as amended. In a store whose live records have `amountOwed >= 0` and
`length >= 0`, every live record still has `amountOwed >= 0` after `updateAmountOwed`
when no record of unknown kind has an infinite length, after `acceptPayment` with
any name and any amount other than NaN, the amount not being infinite when a
live record of that name owes an infinite amount, and after `removeBoat` with
any name. Moreover, when what is owed and the lengths are numbers, they stay
non-negative numbers under the three operations with amounts that are numbers. -/
theorem amountOwed_nonneg_floats (boats : List (Option BoatF)) (h : NonNegativeF boats) :
    ((∀ b, some b ∈ boats → b.type = BoatType.NO_PLACE → b.length ≠ CFloat.posInf) →
        OwedNonNegative (updateAmountOwedF boats)) ∧
      (∀ name amount, amount ≠ CFloat.nan →
        (amount = CFloat.posInf →
          ∀ b, some b ∈ boats → strcasecmp b.name name = 0 → b.amountOwed ≠ CFloat.posInf) →
        OwedNonNegative (acceptPaymentF name amount boats).1) ∧
      (∀ name, OwedNonNegative (removeBoatF name boats).1) ∧
      (FiniteNonNegative boats →
        FiniteNonNegative (updateAmountOwedF boats) ∧
        (∀ name (amount : ℚ),
          FiniteNonNegative (acceptPaymentF name (CFloat.num amount) boats).1) ∧
        (∀ name, FiniteNonNegative (removeBoatF name boats).1)) :=
  ⟨fun hk => updateAmountOwedF_owed boats h hk,
    fun name amount hnan hinf => acceptPaymentF_owed name amount boats h hnan hinf,
    fun name b hb => (h b (removeBoatF_mem name boats b hb)).1,
    fun hfin => ⟨updateAmountOwedF_finite boats hfin,
      fun name amount => acceptPaymentF_finite name amount boats hfin,
      fun name b hb => hfin b (removeBoatF_mem name boats b hb)⟩⟩

theorem finiteNonNegative_paymentStore : FiniteNonNegative (storeF (paymentStore 100)) := by
  intro b hb
  have hmem : b = (bob 100).toF := by
    simp only [storeF, paymentStore, List.map_cons, Option.map_none', Option.map_some',
      List.map_replicate, List.mem_cons, List.mem_replicate] at hb
    rcases hb with h | h | h
    · cases h
    · exact Option.some.inj h
    · cases h.2
  rw [hmem]
  exact ⟨⟨100, rfl, by norm_num⟩, ⟨20, rfl, by norm_num⟩⟩

theorem nonNegativeF_paymentStore : NonNegativeF (storeF (paymentStore 100)) := by
  intro b hb
  obtain ⟨⟨q, hq, hq0⟩, ⟨l, hl, hl0⟩⟩ := finiteNonNegative_paymentStore b hb
  rw [hq, hl]
  exact ⟨by simpa [CFloat.ge] using hq0, by simpa [CFloat.ge] using hl0⟩

/-- C12 as amended, at the store with one record owing 100.00: a payment of
minus infinity is accepted and leaves an amount owed that is not negative. -/
theorem amountOwed_nonneg_floats_witness :
    NonNegativeF (storeF (paymentStore 100)) ∧ CFloat.negInf ≠ CFloat.nan ∧
      OwedNonNegative (acceptPaymentF (cstr "bob") CFloat.negInf (storeF (paymentStore 100))).1 :=
  ⟨nonNegativeF_paymentStore, by decide,
    (amountOwed_nonneg_floats (storeF (paymentStore 100)) nonNegativeF_paymentStore).2.1
      (cstr "bob") CFloat.negInf (by decide) (fun e => by cases e)⟩

theorem nonNegativeF_singleton (b : BoatF) (h1 : CFloat.ge b.amountOwed (CFloat.num 0) = true)
    (h2 : CFloat.ge b.length (CFloat.num 0) = true) : NonNegativeF [some b] := by
  intro b' hb
  have hmem : b' = b := by simpa using hb
  rw [hmem]
  exact ⟨h1, h2⟩

/-- C12, refuted as stated, at three stores whose live records have
`amountOwed >= 0` and `length >= 0`. A payment of NaN, which `scanf` reads from the
text `nan`, is not more than the 100.00 owed, is accepted and leaves NaN owed,
which is not `>= 0`. A payment of infinity to a record that owes infinity is
accepted and leaves NaN as well. A record of unknown kind whose length is
infinite owes NaN after `updateAmountOwed`, the product of the rate 0 and its
length. -/
theorem amountOwed_nan :
    (NonNegativeF (storeF (paymentStore 100)) ∧
      ¬ OwedNonNegative
        (acceptPaymentF (cstr "bob") CFloat.nan (storeF (paymentStore 100))).1) ∧
    (NonNegativeF [some endlessDebt] ∧
      ¬ OwedNonNegative (acceptPaymentF (cstr "bob") CFloat.posInf [some endlessDebt]).1) ∧
    (NonNegativeF [some endlessBoat] ∧
      ¬ OwedNonNegative (updateAmountOwedF [some endlessBoat])) := by
  refine ⟨⟨nonNegativeF_paymentStore, ?_⟩,
    ⟨nonNegativeF_singleton endlessDebt (by decide) (by decide), ?_⟩,
    ⟨nonNegativeF_singleton endlessBoat (by decide) (by decide), ?_⟩⟩
  · intro h
    have hmem : some { (bob 100).toF with amountOwed := CFloat.nan }
        ∈ (acceptPaymentF (cstr "bob") CFloat.nan (storeF (paymentStore 100))).1 := by
      decide
    have := h _ hmem
    simp [CFloat.ge] at this
  · intro h
    have hmem : some { endlessDebt with amountOwed := CFloat.nan }
        ∈ (acceptPaymentF (cstr "bob") CFloat.posInf [some endlessDebt]).1 := by
      decide
    have := h _ hmem
    simp [CFloat.ge] at this
  · intro h
    have hmem : some { endlessBoat with amountOwed := CFloat.nan }
        ∈ updateAmountOwedF [some endlessBoat] := by
      with_unfolding_all decide
    have := h _ hmem
    simp [CFloat.ge] at this

/-! ## The slot of a new record -/

/-- The loop of `addBoat` fills the lowest-indexed empty slot. -/
theorem insertBoat_first_free (boat : Boat) (boats : List (Option Boat))
    (h : ∃ i : Nat, boats[i]? = some none) :
    ∃ i : Nat, boats[i]? = some none ∧ (∀ j, j < i → boats[j]? ≠ some none) ∧
      insertBoat boat boats = boats.set i (some boat) := by
  induction boats with
  | nil =>
    obtain ⟨i, hi⟩ := h
    simp at hi
  | cons x rest ih =>
    cases x with
    | none => exact ⟨0, by simp, by intro j hj; omega, by simp [insertBoat]⟩
    | some a =>
      have hrest : ∃ i : Nat, rest[i]? = some none := by
        obtain ⟨i, hi⟩ := h
        cases i with
        | zero => simp at hi
        | succ k => exact ⟨k, by simpa using hi⟩
      obtain ⟨i, h1, h2, h3⟩ := ih hrest
      refine ⟨i + 1, by simpa using h1, ?_, by simp [insertBoat, h3]⟩
      intro j hj
      cases j with
      | zero => simp
      | succ k => simpa using h2 k (by omega)

theorem liveCount_set_some (boats : List (Option Boat)) (i : Nat) (b : Boat)
    (h : boats[i]? = some none) : liveCount (boats.set i (some b)) = liveCount boats + 1 := by
  induction boats generalizing i with
  | nil => simp at h
  | cons x rest ih =>
    cases i with
    | zero =>
      have hx : x = none := by simpa using h
      subst hx
      simp [liveCount, liveBoats_none, liveBoats_some]
    | succ j =>
      have hj : rest[j]? = some none := by simpa using h
      have := ih j hj
      cases x with
      | none => simpa [liveCount, liveBoats_none] using this
      | some a =>
        simp only [liveCount, List.set_cons_succ, liveBoats_some, List.length_cons] at this ⊢
        omega

/-- C14. When a slot of the store is empty, `addBoat` puts the record it reads into
the lowest-indexed empty slot `i`, leaves every other slot as it was, and the
store has one live record more. -/
theorem addBoat_first_free (boats : List (Option Boat)) (fresh : Boat) (type csv : CString)
    (h : ∃ i : Nat, boats[i]? = some none) :
    ∃ i : Nat, boats[i]? = some none ∧ (∀ j, j < i → boats[j]? ≠ some none) ∧
      addBoat fresh type (some csv) boats = boats.set i (some (readBoat fresh type csv)) ∧
      (addBoat fresh type (some csv) boats)[i]? = some (some (readBoat fresh type csv)) ∧
      (∀ j, j ≠ i → (addBoat fresh type (some csv) boats)[j]? = boats[j]?) ∧
      liveCount (addBoat fresh type (some csv) boats) = liveCount boats + 1 := by
  obtain ⟨i, h1, h2, h3⟩ := insertBoat_first_free (readBoat fresh type csv) boats h
  have hi : i < boats.length := (List.getElem?_eq_some_iff.1 h1).1
  have hadd : addBoat fresh type (some csv) boats
      = boats.set i (some (readBoat fresh type csv)) := h3
  refine ⟨i, h1, h2, hadd, ?_, ?_, ?_⟩
  · rw [hadd]
    simp [hi]
  · intro j hj
    rw [hadd]
    simp [List.getElem?_set_ne (Ne.symm hj)]
  · rw [hadd]
    exact liveCount_set_some boats i _ h1

/-- C14, at a full store from which the record in slot 0 was removed: the slot
is empty again, and the new record goes into it. -/
theorem addBoat_first_free_witness :
    (∃ i : Nat, (removeBoat (cstr "ANN") fullStore).1[i]? = some none) ∧
      ∃ i : Nat, (removeBoat (cstr "ANN") fullStore).1[i]? = some none ∧
        (∀ j, j < i → (removeBoat (cstr "ANN") fullStore).1[j]? ≠ some none) ∧
        addBoat (bob 0) [] (some (cstr "Carl,12,trailer,XY12,0"))
            (removeBoat (cstr "ANN") fullStore).1
          = (removeBoat (cstr "ANN") fullStore).1.set i
              (some (readBoat (bob 0) [] (cstr "Carl,12,trailer,XY12,0"))) ∧
        (addBoat (bob 0) [] (some (cstr "Carl,12,trailer,XY12,0"))
            (removeBoat (cstr "ANN") fullStore).1)[i]?
          = some (some (readBoat (bob 0) [] (cstr "Carl,12,trailer,XY12,0"))) ∧
        (∀ j, j ≠ i →
          (addBoat (bob 0) [] (some (cstr "Carl,12,trailer,XY12,0"))
              (removeBoat (cstr "ANN") fullStore).1)[j]?
            = (removeBoat (cstr "ANN") fullStore).1[j]?) ∧
        liveCount (addBoat (bob 0) [] (some (cstr "Carl,12,trailer,XY12,0"))
            (removeBoat (cstr "ANN") fullStore).1)
          = liveCount (removeBoat (cstr "ANN") fullStore).1 + 1 :=
  have h0 : (removeBoat (cstr "ANN") fullStore).1[0]? = some none := rfl
  ⟨⟨0, h0⟩, addBoat_first_free _ (bob 0) [] (cstr "Carl,12,trailer,XY12,0") ⟨0, h0⟩⟩

/-! ## The contract of the comparison -/

/-- C15, at its failing input and beside it: `compareBoats` gives 1 for two empty
slots, in both orders, so the sign of the result is not the negation of the
sign in the other order there. For every other pair of slots the signs are
opposite, the comparison is transitive, a live record compares before an
empty slot, and two live records compare by name ignoring case. -/
theorem compareBoats_contract :
    compareBoats none none = 1 ∧
    Int.sign (compareBoats none none) ≠ -Int.sign (compareBoats none none) ∧
    (∀ a b : Option Boat, ¬ (a = none ∧ b = none) →
      Int.sign (compareBoats a b) = -Int.sign (compareBoats b a)) ∧
    (∀ a b c : Option Boat, compareBoats a b ≤ 0 → compareBoats b c ≤ 0 →
      compareBoats a c ≤ 0) ∧
    (∀ x : Boat, compareBoats (some x) none < 0 ∧ 0 < compareBoats none (some x)) ∧
    (∀ x y : Boat, compareBoats (some x) (some y) = strcasecmp x.name y.name) := by
  refine ⟨rfl, by decide, ?_, ?_, ?_, ?_⟩
  · intro a b hab
    cases a with
    | none =>
      cases b with
      | none => exact absurd ⟨rfl, rfl⟩ hab
      | some y => simp [compareBoats]
    | some x =>
      cases b with
      | none => simp [compareBoats]
      | some y =>
        simp only [compareBoats]
        rw [strcasecmp_antisymm x.name y.name, Int.sign_neg, neg_neg]
  · intro a b c hab hbc
    cases a with
    | none => simp [compareBoats] at hab
    | some x =>
      cases b with
      | none => simp [compareBoats] at hbc
      | some y =>
        cases c with
        | none => simp [compareBoats]
        | some z => exact strcasecmp_trans _ _ _ hab hbc
  · intro x
    simp [compareBoats]
  · intro x y
    rfl

/-! ## What a payment changes -/

theorem acceptPayment_firstMatch (boats : List (Option Boat)) (name : CString) (amount : ℚ)
    (i : Nat) (b : Boat) (hfound : FirstMatch name boats i b) :
    acceptPayment name amount boats
      = if amount > b.amountOwed then (boats, PaymentResult.overpayment b.amountOwed)
        else (boats.set i (some { b with amountOwed := b.amountOwed - amount }),
          PaymentResult.accepted (b.amountOwed - amount)) := by
  induction boats generalizing i with
  | nil => simp [FirstMatch] at hfound
  | cons x rest ih =>
    cases x with
    | none =>
      obtain ⟨j, hij, hj⟩ := firstMatch_cons_none hfound
      subst hij
      simp only [acceptPayment, ih j hj]
      split <;> simp
    | some a =>
      rcases firstMatch_cons_some hfound with ⟨ha, hi0, hba⟩ | ⟨ha, j, hij, hj⟩
      · subst hba hi0
        simp only [acceptPayment, ha, if_true]
        split <;> simp
      · subst hij
        simp only [acceptPayment, ha, if_false, ih j hj]
        split <;> simp

theorem acceptPayment_noMatch (boats : List (Option Boat)) (name : CString) (amount : ℚ)
    (h : ∀ b, some b ∈ boats → strcasecmp b.name name ≠ 0) :
    acceptPayment name amount boats = (boats, PaymentResult.notFound) := by
  induction boats with
  | nil => rfl
  | cons x rest ih =>
    have hrest : ∀ b, some b ∈ rest → strcasecmp b.name name ≠ 0 :=
      fun b hb => h b (List.mem_cons_of_mem _ hb)
    cases x with
    | none => simp [acceptPayment, ih hrest]
    | some a =>
      have ha : strcasecmp a.name name ≠ 0 := h a (List.mem_cons_self _ _)
      simp [acceptPayment, ha, ih hrest]

/-- C17. A payment that is zero or negative is not refused: when the lookup of
`name` finds the record `b` in slot `i`, `amount ≤ 0` and `b` owes a non-negative
amount, `acceptPayment` accepts the payment, `b` then owes `b.amountOwed - amount`,
which is at least what it owed before, and more when `amount` is negative. -/
theorem acceptPayment_nonpositive (boats : List (Option Boat)) (name : CString) (amount : ℚ)
    (i : Nat) (b : Boat) (hfound : FirstMatch name boats i b) (hamount : amount ≤ 0)
    (howed : 0 ≤ b.amountOwed) :
    acceptPayment name amount boats
        = (boats.set i (some { b with amountOwed := b.amountOwed - amount }),
            PaymentResult.accepted (b.amountOwed - amount)) ∧
      b.amountOwed ≤ b.amountOwed - amount ∧
      (amount < 0 → b.amountOwed < b.amountOwed - amount) := by
  refine ⟨?_, by linarith, fun h => by linarith⟩
  rw [acceptPayment_firstMatch boats name amount i b hfound]
  have hnot : ¬ amount > b.amountOwed := by
    intro h
    linarith
  simp [hnot]

/-- C17, at the record owing 100.00: a payment of -25.00 makes it owe 125.00. -/
theorem acceptPayment_nonpositive_witness :
    FirstMatch (cstr "BOB") (paymentStore 100) 1 (bob 100) ∧ (-25 : ℚ) ≤ 0 ∧
      (0 : ℚ) ≤ (bob 100).amountOwed ∧
      acceptPayment (cstr "BOB") (-25) (paymentStore 100)
        = (paymentStore 125, PaymentResult.accepted 125) := by
  refine ⟨paymentStore_firstMatch 100, by norm_num, by norm_num [bob], ?_⟩
  have h := (acceptPayment_nonpositive (paymentStore 100) (cstr "BOB") (-25) 1 (bob 100)
    (paymentStore_firstMatch 100) (by norm_num) (by norm_num [bob])).1
  rw [h]
  have e : (100 : ℚ) - (-25) = 125 := by norm_num
  simp only [paymentStore, bob, List.set_cons_succ, List.set_cons_zero, e]

theorem map_set_of_eq {α β : Type} (f : α → β) (l : List α) (i : Nat) (x y : α)
    (h : l[i]? = some y) (hf : f x = f y) : (l.set i x).map f = l.map f := by
  induction l generalizing i with
  | nil => rfl
  | cons a rest ih =>
    cases i with
    | zero =>
      have hay : a = y := by simpa using h
      subst hay
      simp [hf]
    | succ j =>
      have hj : rest[j]? = some y := by simpa using h
      simp [ih j hj]

/-- C18. `acceptPayment` returns the store as it was, or the store in which the
record `b` that the lookup of `name` finds, in slot `i`, owes `b.amountOwed - amount`
and nothing else differs: a live record that the lookup does not find stays as
it was, no record changes in anything but what it owes, and the same slots are
occupied. -/
theorem acceptPayment_frame (boats : List (Option Boat)) (name : CString) (amount : ℚ) :
    ((acceptPayment name amount boats).1 = boats ∨
      ∃ i b, FirstMatch name boats i b ∧
        (acceptPayment name amount boats).1
          = boats.set i (some { b with amountOwed := b.amountOwed - amount })) ∧
    (∀ (j : Nat) (b : Boat), boats[j]? = some (some b) → ¬ FirstMatch name boats j b →
      (acceptPayment name amount boats).1[j]? = some (some b)) ∧
    (acceptPayment name amount boats).1.map (Option.map Boat.besidesOwed)
      = boats.map (Option.map Boat.besidesOwed) ∧
    (acceptPayment name amount boats).1.map Option.isSome = boats.map Option.isSome := by
  by_cases hm : ∃ a, some a ∈ boats ∧ strcasecmp a.name name = 0
  · obtain ⟨a, ha, hn⟩ := hm
    obtain ⟨i, b, hfm⟩ := exists_firstMatch name boats a ha hn
    rw [acceptPayment_firstMatch boats name amount i b hfm]
    by_cases hover : amount > b.amountOwed
    · rw [if_pos hover]
      exact ⟨Or.inl rfl, fun j b' hj _ => hj, rfl, rfl⟩
    · rw [if_neg hover]
      refine ⟨Or.inr ⟨i, b, hfm, rfl⟩, ?_, ?_, ?_⟩
      · intro j b' hj hnot
        have hji : i ≠ j := by
          intro e
          subst e
          have hbb : b = b' := by
            have := hfm.1
            rw [hj] at this
            simpa using this.symm
          subst hbb
          exact hnot hfm
        rw [List.getElem?_set_ne hji]
        exact hj
      · exact map_set_of_eq _ boats i _ (some b) hfm.1 rfl
      · exact map_set_of_eq _ boats i _ (some b) hfm.1 rfl
  · have hno : ∀ b, some b ∈ boats → strcasecmp b.name name ≠ 0 :=
      fun b hb h0 => hm ⟨b, hb, h0⟩
    rw [acceptPayment_noMatch boats name amount hno]
    exact ⟨Or.inl rfl, fun j b' hj _ => hj, rfl, rfl⟩

/-! ## The store after a listing -/

theorem all_none_of_slotLE_none (rest : List (Option Boat))
    (h : ∀ z ∈ rest, SlotLE none z) : rest = List.replicate rest.length none := by
  apply List.eq_replicate_iff.2
  refine ⟨rfl, ?_⟩
  intro z hz
  have := h z hz
  cases z with
  | none => rfl
  | some b => simp [SlotLE] at this

/-- A store in the order of `SlotLE` has its live records first and its empty
slots after them. -/
theorem shape_of_slotLE (l : List (Option Boat)) (h : l.Pairwise SlotLE) :
    l = (liveBoats l).map some ++ List.replicate (l.length - liveCount l) none := by
  induction l with
  | nil => rfl
  | cons x rest ih =>
    obtain ⟨hx, hrest⟩ := List.pairwise_cons.1 h
    cases x with
    | none =>
      have hall := all_none_of_slotLE_none rest hx
      have hlive : liveBoats rest = [] := by
        rw [hall]
        simp [liveBoats, List.filterMap_replicate]
      simp only [liveCount, liveBoats_none, hlive, List.map_nil, List.nil_append,
        List.length_nil, List.length_cons, Nat.sub_zero]
      rw [List.replicate_succ, ← hall]
    | some b =>
      have hle : liveCount rest ≤ rest.length := by
        simpa [liveCount, liveBoats] using List.length_filterMap_le id rest
      have e : (some b :: rest).length - liveCount (some b :: rest)
          = rest.length - liveCount rest := by
        simp only [liveCount, liveBoats_some, List.length_cons]
        omega
      rw [e, liveBoats_some, List.map_cons, List.cons_append, ← ih hrest]

theorem liveBoats_map_some_append (l : List Boat) (k : Nat) :
    liveBoats (l.map some ++ List.replicate k none) = l := by
  induction l with
  | nil => simp [liveBoats, List.filterMap_replicate]
  | cons a t ih =>
    rw [List.map_cons, List.cons_append, liveBoats_some, ih]

theorem insertBoat_after_live (boat : Boat) (l : List Boat) (k : Nat) :
    insertBoat boat (l.map some ++ List.replicate (k + 1) none)
      = l.map some ++ some boat :: List.replicate k none := by
  induction l with
  | nil => simp [insertBoat, List.replicate_succ]
  | cons a t ih => simp [insertBoat, ih]

theorem set_after_live (boat : Boat) (l : List Boat) (k : Nat) :
    (l.map some ++ List.replicate (k + 1) none).set l.length (some boat)
      = l.map some ++ some boat :: List.replicate k none := by
  induction l with
  | nil => simp [List.replicate_succ]
  | cons a t ih => simp [ih]

theorem qsort_length (boats : List (Option Boat)) :
    (qsort boats compareBoats).length = boats.length :=
  (qsort_perm boats).length_eq

theorem liveCount_qsort (boats : List (Option Boat)) :
    liveCount (qsort boats compareBoats) = liveCount boats :=
  ((qsort_perm boats).filterMap id).length_eq

/-- C19. After `printInventory` the store holds the same live records, up to
their order: the live records stand in the first slots, in the order of the
listing, and the empty slots follow them; and when a slot is empty, `addBoat`
then puts its record into the slot whose index is the number of live records. -/
theorem printInventory_store (boats : List (Option Boat)) :
    (liveBoats (printInventory boats).1).Perm (liveBoats boats) ∧
    (printInventory boats).1.length = boats.length ∧
    (printInventory boats).1
      = (printInventory boats).2.map some
          ++ List.replicate (boats.length - liveCount boats) none ∧
    (printInventory boats).2.length = liveCount boats ∧
    (∀ i, i < liveCount boats → ∃ b, (printInventory boats).1[i]? = some (some b)) ∧
    (∀ i, liveCount boats ≤ i → i < boats.length →
      (printInventory boats).1[i]? = some none) ∧
    (∀ fresh type csv, liveCount boats < boats.length →
      addBoat fresh type (some csv) (printInventory boats).1
        = (printInventory boats).1.set (liveCount boats)
            (some (readBoat fresh type csv))) := by
  have hshape := shape_of_slotLE _ (qsort_slotLE boats)
  rw [qsort_length, liveCount_qsort] at hshape
  have hlist : (printInventory boats).2 = liveBoats (qsort boats compareBoats) :=
    printLoop_eq_liveBoats _
  have hstore : (printInventory boats).1 = qsort boats compareBoats := rfl
  have hlen : (liveBoats (qsort boats compareBoats)).length = liveCount boats :=
    liveCount_qsort boats
  rw [hstore, hlist]
  refine ⟨(qsort_perm boats).filterMap id, qsort_length boats, hshape, hlen, ?_, ?_, ?_⟩
  · intro i hi
    rw [hshape]
    have hi' : i < ((liveBoats (qsort boats compareBoats)).map some).length := by
      rw [List.length_map, hlen]
      exact hi
    rw [List.getElem?_append_left hi']
    have hi'' : i < (liveBoats (qsort boats compareBoats)).length := by
      rw [hlen]
      exact hi
    exact ⟨(liveBoats (qsort boats compareBoats))[i], by simp [hi'']⟩
  · intro i hi hlt
    rw [hshape]
    have hge : ((liveBoats (qsort boats compareBoats)).map some).length ≤ i := by
      rw [List.length_map, hlen]
      exact hi
    rw [List.getElem?_append_right hge, List.length_map, hlen]
    have : i - liveCount boats < boats.length - liveCount boats := by omega
    simp [this]
  · intro fresh type csv hlt
    obtain ⟨k, hk⟩ : ∃ k, boats.length - liveCount boats = k + 1 :=
      ⟨boats.length - liveCount boats - 1, by omega⟩
    rw [hk] at hshape
    simp only [addBoat]
    generalize liveBoats (qsort boats compareBoats) = l at hshape hlen
    rw [hshape, insertBoat_after_live, ← hlen, set_after_live]

/-! ## Stability of the listing -/

/-- When the head of a run in order compares after a slot that matches
`candidate`, no slot of the run matches it. -/
theorem no_match_of_not_le (candidate : CString) (x y : Option Boat) (xs : List (Option Boat))
    (hx : (x :: xs).Pairwise SlotLE) (hgt : ¬ compareBoats x y ≤ 0)
    (hy : slotMatches candidate y = true) :
    (x :: xs).filter (slotMatches candidate) = [] := by
  obtain ⟨hxall, _⟩ := List.pairwise_cons.1 hx
  cases y with
  | none => simp [slotMatches] at hy
  | some b =>
    simp only [slotMatches, matchesName, decide_eq_true_eq] at hy
    apply List.filter_eq_nil_iff.2
    intro z hz hzm
    cases z with
    | none => simp [slotMatches] at hzm
    | some c =>
      simp only [slotMatches, matchesName, decide_eq_true_eq] at hzm
      have hcb : strcasecmp c.name b.name = 0 :=
        strcasecmp_eq_zero_of_common _ _ candidate hzm hy
      cases x with
      | none =>
        rcases List.mem_cons.1 hz with h | h
        · cases h
        · have := hxall _ h
          simp [SlotLE] at this
      | some a =>
        simp only [compareBoats] at hgt
        rcases List.mem_cons.1 hz with h | h
        · have hca : c = a := by simpa using h
          subst hca
          omega
        · have hac : strcasecmp a.name c.name ≤ 0 := hxall _ h
          have := strcasecmp_trans _ _ _ hac (le_of_eq hcb)
          omega

theorem mergeRuns_filter (candidate : CString) (xs ys : List (Option Boat))
    (hx : xs.Pairwise SlotLE) (hy : ys.Pairwise SlotLE) :
    (mergeRuns compareBoats xs ys).filter (slotMatches candidate)
      = xs.filter (slotMatches candidate) ++ ys.filter (slotMatches candidate) := by
  induction xs generalizing ys with
  | nil => rfl
  | cons x xs ihx =>
    induction ys with
    | nil => rw [mergeRuns_nil_right, List.filter_nil, List.append_nil]
    | cons y ys ihy =>
      rw [mergeRuns_cons_cons]
      obtain ⟨_, hxs⟩ := List.pairwise_cons.1 hx
      obtain ⟨_, hys⟩ := List.pairwise_cons.1 hy
      split
      · rw [List.filter_cons, ihx (y :: ys) hxs hy]
        by_cases hm : slotMatches candidate x = true
        · simp [List.filter_cons, hm]
        · simp [List.filter_cons, hm]
      · next hgt =>
        rw [List.filter_cons, ihy hys]
        by_cases hm : slotMatches candidate y = true
        · rw [no_match_of_not_le candidate x y xs hx hgt hm]
          simp [List.filter_cons, hm]
        · simp [List.filter_cons, hm]

theorem msort_filter (candidate : CString) (depth : Nat) (b : List (Option Boat))
    (hd : b.length ≤ depth) :
    (msort compareBoats depth b).filter (slotMatches candidate)
      = b.filter (slotMatches candidate) := by
  induction depth generalizing b with
  | zero => rfl
  | succ d ih =>
    simp only [msort]
    split
    · rfl
    · next hlen =>
      have h1 : (b.take (b.length / 2)).length ≤ d := by
        rw [List.length_take]; omega
      have h2 : (b.drop (b.length / 2)).length ≤ d := by
        rw [List.length_drop]; omega
      rw [mergeRuns_filter candidate _ _
          (msort_pairwise compareBoats SlotLE slotLE_of_compareBoats slotLE_of_not_compareBoats
            slotLE_trans d _ h1)
          (msort_pairwise compareBoats SlotLE slotLE_of_compareBoats slotLE_of_not_compareBoats
            slotLE_trans d _ h2),
        ih _ h1, ih _ h2, ← List.filter_append, List.take_append_drop]

theorem liveBoats_filter (candidate : CString) (l : List (Option Boat)) :
    liveBoats (l.filter (slotMatches candidate)) = (liveBoats l).filter (matchesName candidate) := by
  induction l with
  | nil => rfl
  | cons x rest ih =>
    cases x with
    | none => simpa [List.filter_cons, slotMatches, liveBoats_none] using ih
    | some b =>
      by_cases hb : matchesName candidate b = true
      · simp [List.filter_cons, slotMatches, liveBoats_some, hb, ih]
      · simp [List.filter_cons, slotMatches, liveBoats_some, hb, ih]

theorem listing_filter (candidate : CString) (boats : List (Option Boat)) :
    (printInventory boats).2.filter (matchesName candidate)
      = (liveBoats boats).filter (matchesName candidate) := by
  have hlist : (printInventory boats).2 = liveBoats (qsort boats compareBoats) :=
    printLoop_eq_liveBoats _
  rw [hlist, ← liveBoats_filter, ← liveBoats_filter]
  exact congrArg liveBoats (msort_filter candidate _ boats (le_refl _))

theorem listing_pairwise (boats : List (Option Boat)) :
    (printInventory boats).2.Pairwise (fun a b => strcasecmp a.name b.name ≤ 0) := by
  simp only [printInventory, printLoop_eq_liveBoats, liveBoats]
  refine List.Pairwise.filterMap id ?_ (qsort_slotLE boats)
  intro a a' haa b hb b' hb'
  simp only [id, Option.mem_def] at hb hb'
  subst hb hb'
  exact haa

/-- Two lists in the order of the names that hold, for every name, the same
records of that name in the same order are the same list. -/
theorem eq_of_pairwise_of_filter (l1 l2 : List Boat)
    (h1 : l1.Pairwise (fun a b => strcasecmp a.name b.name ≤ 0))
    (h2 : l2.Pairwise (fun a b => strcasecmp a.name b.name ≤ 0))
    (hf : ∀ candidate, l1.filter (matchesName candidate) = l2.filter (matchesName candidate)) :
    l1 = l2 := by
  induction l1 generalizing l2 with
  | nil =>
    cases l2 with
    | nil => rfl
    | cons b t2 =>
      have := hf b.name
      simp [List.filter_cons, matchesName, strcasecmp_self] at this
  | cons a t1 ih =>
    cases l2 with
    | nil =>
      have := hf a.name
      simp [List.filter_cons, matchesName, strcasecmp_self] at this
    | cons b t2 =>
      obtain ⟨ha, ht1⟩ := List.pairwise_cons.1 h1
      obtain ⟨hb, ht2⟩ := List.pairwise_cons.1 h2
      have haa : matchesName a.name a = true := by simp [matchesName, strcasecmp_self]
      have hbb : matchesName b.name b = true := by simp [matchesName, strcasecmp_self]
      have hba : strcasecmp b.name a.name ≤ 0 := by
        have hmem : a ∈ (b :: t2).filter (matchesName a.name) := by
          rw [← hf a.name]
          simp [List.filter_cons, haa]
        rcases List.mem_cons.1 (List.mem_filter.1 hmem).1 with h | h
        · rw [h]
          exact le_of_eq (strcasecmp_self _)
        · exact hb a h
      have hab : strcasecmp a.name b.name ≤ 0 := by
        have hmem : b ∈ (a :: t1).filter (matchesName b.name) := by
          rw [hf b.name]
          simp [List.filter_cons, hbb]
        rcases List.mem_cons.1 (List.mem_filter.1 hmem).1 with h | h
        · rw [h]
          exact le_of_eq (strcasecmp_self _)
        · exact ha b h
      have hzero : strcasecmp b.name a.name = 0 := by
        have := strcasecmp_antisymm a.name b.name
        omega
      have hbm : matchesName a.name b = true := by simp [matchesName, hzero]
      have hhead := hf a.name
      simp only [List.filter_cons, haa, hbm, if_true] at hhead
      have heq : a = b := (List.cons.inj hhead).1
      subst heq
      have htail : t1 = t2 := by
        apply ih t2 ht1 ht2
        intro candidate
        have := hf candidate
        simp only [List.filter_cons] at this
        split at this
        · exact (List.cons.inj this).2
        · exact this
      rw [htail]

/-- C16. The listing is stable: for every name, the records of that name,
ignoring case, are listed in the order of their slots; and the listing is
determined by the live records of the store in slot order, wherever the empty
slots lie. -/
theorem printInventory_stable (boats : List (Option Boat)) :
    (∀ candidate : CString,
      (printInventory boats).2.filter (matchesName candidate)
        = (liveBoats boats).filter (matchesName candidate)) ∧
    (∀ boats' : List (Option Boat), liveBoats boats' = liveBoats boats →
      (printInventory boats').2 = (printInventory boats).2) := by
  refine ⟨fun candidate => listing_filter candidate boats, ?_⟩
  intro boats' hlive
  apply eq_of_pairwise_of_filter _ _ (listing_pairwise boats') (listing_pairwise boats)
  intro candidate
  rw [listing_filter, listing_filter, hlive]

/-! ## Loading lines -/

theorem bytes_append (a b : CString) : bytes (a ++ b) = bytes a ++ bytes b := by
  simp [bytes]

theorem ofBytes_bytes (s : CString) : ofBytes (bytes s) = s := by
  induction s with
  | nil => rfl
  | cons c rest ih =>
    have hc := c.2
    simp only [bytes, List.map_cons] at ih ⊢
    simp only [ofBytes, hc, dite_true, ih]

theorem fgets_line (n : Nat) (line : CString) (rest : List Nat) (hlen : line.length < n)
    (hnl : ∀ c ∈ line, c.val ≠ 10) :
    fgets n (bytes line ++ 10 :: rest) = (bytes line ++ [10], rest) := by
  induction line generalizing n with
  | nil =>
    cases n with
    | zero => simp at hlen
    | succ k => simp [bytes, fgets]
  | cons c t ih =>
    cases n with
    | zero => simp at hlen
    | succ k =>
      have hc : c.val ≠ 10 := hnl c (List.mem_cons_self _ _)
      have ht : ∀ d ∈ t, d.val ≠ 10 := fun d hd => hnl d (List.mem_cons_of_mem _ hd)
      have hk : t.length < k := by
        simp only [List.length_cons] at hlen
        omega
      have := ih k hk ht
      simp only [bytes, List.map_cons, List.cons_append] at this ⊢
      simp only [fgets, hc, if_false, this]

theorem loadLoop_step (fresh : Nat → Boat) (type : Nat → CString) (left index : Nat)
    (line : CString) (rest : List CString) (boats : List (Option Boat))
    (hline : FitsBuffer line) :
    loadLoop fresh type (left + 1) index (fileOfLines (line :: rest)) boats
      = loadLoop fresh type left (index + 1) (fileOfLines rest)
          (boats.set index
            (some (readBoat (fresh index) (type index) (line ++ [newline])))) := by
  have hf := fgets_line 255 line (fileOfLines rest) hline.1 hline.2
  have hb : ofBytes (bytes line ++ [10]) = line ++ [newline] := by
    have : bytes line ++ [10] = bytes (line ++ [newline]) := by
      rw [bytes_append]
      rfl
    rw [this, ofBytes_bytes]
  simp only [fileOfLines] at hf ⊢
  cases hfile : bytes line ++ 10 :: fileOfLines rest with
  | nil => simp at hfile
  | cons c file =>
    rw [hfile] at hf
    simp only [loadLoop, hf, hb]

theorem loadLoop_lines (fresh : Nat → Boat) (type : Nat → CString) (left index : Nat)
    (lines : List CString) (boats : List (Option Boat)) (h : ∀ l ∈ lines, FitsBuffer l) :
    loadLoop fresh type left index (fileOfLines lines) boats
      = writeFrom index (recordsOfLines fresh type index (lines.take left)) boats := by
  induction left generalizing index lines boats with
  | zero => simp [loadLoop, recordsOfLines, writeFrom]
  | succ k ih =>
    cases lines with
    | nil => simp [fileOfLines, loadLoop, recordsOfLines, writeFrom]
    | cons l rest =>
      rw [loadLoop_step fresh type k index l rest boats (h l (List.mem_cons_self _ _)),
        ih (index + 1) rest _ (fun l' hl' => h l' (List.mem_cons_of_mem _ hl'))]
      simp [recordsOfLines, writeFrom]

theorem writeFrom_empty (records : List Boat) (filled : List (Option Boat)) (k : Nat)
    (hk : records.length ≤ k) :
    writeFrom filled.length records (filled ++ List.replicate k none)
      = filled ++ records.map some ++ List.replicate (k - records.length) none := by
  induction records generalizing filled k with
  | nil => simp [writeFrom]
  | cons b rest ih =>
    cases k with
    | zero => simp at hk
    | succ j =>
      have hj : rest.length ≤ j := by
        simp only [List.length_cons] at hk
        omega
      have hset : (filled ++ List.replicate (j + 1) none).set filled.length (some b)
          = (filled ++ [some b]) ++ List.replicate j none := by
        rw [List.set_append_right _ _ (le_refl _)]
        simp [List.replicate_succ]
      have := ih (filled ++ [some b]) j hj
      simp only [List.length_append, List.length_singleton] at this
      simp only [writeFrom, hset, this, List.length_cons, List.map_cons]
      simp

theorem recordsOfLines_length (fresh : Nat → Boat) (type : Nat → CString) (index : Nat)
    (lines : List CString) : (recordsOfLines fresh type index lines).length = lines.length := by
  induction lines generalizing index with
  | nil => rfl
  | cons l rest ih => simp [recordsOfLines, ih]

theorem recordsOfLines_getElem? (fresh : Nat → Boat) (type : Nat → CString) (index i : Nat)
    (lines : List CString) (line : CString) (h : lines[i]? = some line) :
    (recordsOfLines fresh type index lines)[i]?
      = some (readBoat (fresh (index + i)) (type (index + i)) (line ++ [newline])) := by
  induction lines generalizing index i with
  | nil => simp at h
  | cons l rest ih =>
    cases i with
    | zero =>
      have hl : l = line := by simpa using h
      subst hl
      simp [recordsOfLines]
    | succ j =>
      have hj : rest[j]? = some line := by simpa using h
      have := ih (index + 1) j hj
      simp only [recordsOfLines, List.getElem?_cons_succ, this]
      have e : index + 1 + j = index + (j + 1) := by omega
      rw [e]

/-- The store that `loadData` makes of a file of lines, from the empty store. -/
theorem loadData_fileOfLines (fresh : Nat → Boat) (type : Nat → CString) (lines : List CString)
    (h : ∀ l ∈ lines, FitsBuffer l) :
    loadData fresh type (some (fileOfLines lines)) emptyStore
      = some ((recordsOfLines fresh type 0 (lines.take MAX_BOATS)).map some
          ++ List.replicate (MAX_BOATS - min lines.length MAX_BOATS) none) := by
  simp only [loadData]
  rw [loadLoop_lines fresh type MAX_BOATS 0 lines emptyStore h]
  have hlen : (recordsOfLines fresh type 0 (lines.take MAX_BOATS)).length
      = min lines.length MAX_BOATS := by
    rw [recordsOfLines_length, List.length_take, Nat.min_comm]
  have := writeFrom_empty (recordsOfLines fresh type 0 (lines.take MAX_BOATS)) [] MAX_BOATS
    (by rw [hlen]; exact Nat.min_le_right _ _)
  simp only [List.length_nil, List.nil_append] at this
  rw [emptyStore, this, hlen]

/-- C13. `loadData` stores at most `MAX_BOATS` records: from the empty store and a
file of `n` lines, each of fewer than 255 characters before its newline, the
store holds `min n 120` live records, slot `i` holds the record read from line
`i` for every `i < min n 120`, the other slots are empty, and the lines after the
120th change nothing. -/
theorem loadData_at_most_max (fresh : Nat → Boat) (type : Nat → CString) (lines : List CString)
    (h : ∀ l ∈ lines, FitsBuffer l) :
    ∃ loaded, loadData fresh type (some (fileOfLines lines)) emptyStore = some loaded ∧
      loaded.length = MAX_BOATS ∧
      liveCount loaded = min lines.length 120 ∧
      (∀ i line, i < 120 → lines[i]? = some line →
        loaded[i]? = some (some (readBoat (fresh i) (type i) (line ++ [newline])))) ∧
      (∀ i, min lines.length 120 ≤ i → i < 120 → loaded[i]? = some none) ∧
      loadData fresh type (some (fileOfLines (lines.take 120))) emptyStore = some loaded := by
  have hlen : (recordsOfLines fresh type 0 (lines.take MAX_BOATS)).length
      = min lines.length MAX_BOATS := by
    rw [recordsOfLines_length, List.length_take, Nat.min_comm]
  have hmax : MAX_BOATS = 120 := rfl
  refine ⟨_, loadData_fileOfLines fresh type lines h, ?_, ?_, ?_, ?_, ?_⟩
  · rw [List.length_append, List.length_map, hlen, List.length_replicate]
    have := Nat.min_le_right lines.length MAX_BOATS
    omega
  · rw [liveCount, liveBoats_map_some_append, hlen, hmax]
  · intro i line hi hline
    have hi' : i < ((recordsOfLines fresh type 0 (lines.take MAX_BOATS)).map some).length := by
      rw [List.length_map, hlen, hmax]
      have := (List.getElem?_eq_some_iff.1 hline).1
      omega
    rw [List.getElem?_append_left hi', List.getElem?_map,
      recordsOfLines_getElem? fresh type 0 i _ line (by
        rw [List.getElem?_take_of_lt (by rw [hmax]; exact hi)]
        exact hline)]
    simp
  · intro i hge hi
    have hge' : ((recordsOfLines fresh type 0 (lines.take MAX_BOATS)).map some).length ≤ i := by
      rw [List.length_map, hlen, hmax]
      exact hge
    rw [List.getElem?_append_right hge', List.length_map, hlen, hmax]
    have : i - min lines.length 120 < 120 - min lines.length 120 := by omega
    simp [this]
  · rw [loadData_fileOfLines fresh type (lines.take 120)
      (fun l hl => h l (List.mem_of_mem_take hl))]
    have e1 : (lines.take 120).take MAX_BOATS = lines.take MAX_BOATS := by
      rw [hmax, List.take_take, Nat.min_self]
    have e2 : min (lines.take 120).length MAX_BOATS = min lines.length MAX_BOATS := by
      rw [List.length_take, hmax]
      omega
    rw [e1, e2]

/-! ## Scanning what `%.2f` printed -/

theorem roundHalfEven_natCast (n : Nat) : roundHalfEven (n : ℚ) = n := by
  have hf : (Int.floor (n : ℚ)).toNat = n := by
    rw [Int.floor_natCast]
    rfl
  unfold roundHalfEven
  simp only [hf, sub_self]
  norm_num

theorem hundredths_of_twoDecimal (x : ℚ) (m : Int) (hx : x = m / 100) :
    roundHalfEven (|x| * 100) = m.natAbs := by
  have h : |x| * 100 = (m.natAbs : ℚ) := by
    rw [hx, abs_div, abs_of_pos (by norm_num : (0 : ℚ) < 100)]
    have : |(m : ℚ)| = (m.natAbs : ℚ) := by
      rw [← Int.cast_abs, Int.abs_eq_natAbs]
      rfl
    rw [this]
    field_simp
  rw [h, roundHalfEven_natCast]

/-- The conversion `%f` on digits, a point and two digits, before a character
that is neither a digit nor the letter of an exponent. -/
theorem scanFloat_fixed (ip : CString) (d1 d2 c : CChar) (rest : CString) (hne : ip ≠ [])
    (hip : ∀ a ∈ ip, isdigit a = true) (h1 : isdigit d1 = true) (h2 : isdigit d2 = true)
    (hc : isdigit c = false) (he : c.val ≠ 101) (hE : c.val ≠ 69) :
    scanFloat (ip ++ (⟨46, by decide⟩ : CChar) :: d1 :: d2 :: c :: rest)
        = some ((digitsValue ip : ℚ) + (digitsValue [d1, d2] : ℚ) / 100, c :: rest) ∧
      scanFloat ((⟨45, by decide⟩ : CChar) :: (ip ++ (⟨46, by decide⟩ : CChar) :: d1 :: d2 :: c :: rest))
        = some (-((digitsValue ip : ℚ) + (digitsValue [d1, d2] : ℚ) / 100), c :: rest) := by
  cases ip with
  | nil => exact absurd rfl hne
  | cons d t =>
    have hdd := hip d (List.mem_cons_self _ _)
    simp only [isdigit, Bool.and_eq_true, decide_eq_true_eq] at hdd
    have hsp : isspace d = false := by
      simp only [isspace, Bool.or_eq_false_iff, Bool.and_eq_false_iff, decide_eq_false_iff_not]
      omega
    have h45 : ¬ d.val = 45 := by omega
    have h43 : ¬ d.val = 43 := by omega
    have hm : isspace (⟨45, by decide⟩ : CChar) = false := by decide
    have hdot : isdigit (⟨46, by decide⟩ : CChar) = false := by decide
    have hdrop : ((d :: t) ++ (⟨46, by decide⟩ : CChar) :: d1 :: d2 :: c :: rest).dropWhile isspace
        = (d :: t) ++ (⟨46, by decide⟩ : CChar) :: d1 :: d2 :: c :: rest := by
      simp [List.dropWhile_cons, hsp]
    have hdropm : ((⟨45, by decide⟩ : CChar)
          :: ((d :: t) ++ (⟨46, by decide⟩ : CChar) :: d1 :: d2 :: c :: rest)).dropWhile isspace
        = (⟨45, by decide⟩ : CChar)
          :: ((d :: t) ++ (⟨46, by decide⟩ : CChar) :: d1 :: d2 :: c :: rest) := by
      rw [List.dropWhile_cons_of_neg (by rw [hm]; decide)]
    have hsign : scanSign ((d :: t) ++ (⟨46, by decide⟩ : CChar) :: d1 :: d2 :: c :: rest)
        = (false, (d :: t) ++ (⟨46, by decide⟩ : CChar) :: d1 :: d2 :: c :: rest) := by
      simp [scanSign, h45, h43]
    have hsignm : scanSign ((⟨45, by decide⟩ : CChar)
          :: ((d :: t) ++ (⟨46, by decide⟩ : CChar) :: d1 :: d2 :: c :: rest))
        = (true, (d :: t) ++ (⟨46, by decide⟩ : CChar) :: d1 :: d2 :: c :: rest) := by
      simp [scanSign]
    have hspan1 : ((d :: t) ++ (⟨46, by decide⟩ : CChar) :: d1 :: d2 :: c :: rest).span isdigit
        = (d :: t, (⟨46, by decide⟩ : CChar) :: d1 :: d2 :: c :: rest) :=
      span_stop (d :: t) _ _ hip hdot
    have hspan2 : (d1 :: d2 :: c :: rest).span isdigit = ([d1, d2], c :: rest) := by
      have := span_stop [d1, d2] c rest (by
        intro a ha
        rcases List.mem_cons.1 ha with h | h
        · rw [h]; exact h1
        · rw [List.mem_singleton.1 h]; exact h2) hc
      simpa using this
    have hexp : scanExponent (c :: rest) = some (false, 0, c :: rest) := by
      simp [scanExponent, he, hE]
    have hnot : ¬ (d :: t = [] ∧ [d1, d2] = []) := by simp
    refine ⟨?_, ?_⟩
    · unfold scanFloat
      rw [hdrop, hsign]
      simp only []
      rw [hspan1]
      simp only [if_true]
      rw [hspan2]
      simp only [hnot, if_false, hexp]
      norm_num
    · unfold scanFloat
      rw [hdropm, hsignm]
      simp only []
      rw [hspan1]
      simp only [if_true]
      rw [hspan2]
      simp only [hnot, if_false, hexp]
      norm_num

theorem digitsValue_pair (k : Nat) :
    digitsValue [digitChar (k % 100 / 10), digitChar (k % 10)] = k % 100 := by
  simp only [digitsValue, List.foldl_cons, List.foldl_nil, digitChar]
  omega

/-- The conversion `%f` reads back an exact two-decimal value that `%.2f` printed. -/
theorem scanFloat_printFixed2 (x : ℚ) (hx : TwoDecimal x) (c : CChar) (rest : CString)
    (hc : isdigit c = false) (he : c.val ≠ 101) (hE : c.val ≠ 69) :
    scanFloat (printFixed2 x ++ c :: rest) = some (x, c :: rest) := by
  obtain ⟨m, hm⟩ := hx
  have hk := hundredths_of_twoDecimal x m hm
  have hne := natDigits_ne_nil (m.natAbs / 100 + 1) (m.natAbs / 100) (by omega)
  have hd := natDigits_isdigit (m.natAbs / 100 + 1) (m.natAbs / 100)
  have hv := natDigits_value (m.natAbs / 100 + 1) (m.natAbs / 100) (by omega)
  obtain ⟨hpos, hneg⟩ := scanFloat_fixed _ (digitChar (m.natAbs % 100 / 10))
    (digitChar (m.natAbs % 10)) c rest hne hd (isdigit_digitChar _) (isdigit_digitChar _)
    hc he hE
  rw [hv, digitsValue_pair] at hpos hneg
  have hval : ((m.natAbs / 100 : Nat) : ℚ) + ((m.natAbs % 100 : Nat) : ℚ) / 100
      = (m.natAbs : ℚ) / 100 := by
    have h := Nat.div_add_mod m.natAbs 100
    have hq : (m.natAbs : ℚ) = 100 * ((m.natAbs / 100 : Nat) : ℚ) + ((m.natAbs % 100 : Nat) : ℚ) := by
      exact_mod_cast h.symm
    rw [hq]
    field_simp
    ring
  rw [hval] at hpos hneg
  have habs : (m.natAbs : ℚ) = |(m : ℚ)| := by
    rw [← Int.cast_abs, Int.abs_eq_natAbs]
    rfl
  unfold printFixed2
  simp only [hk]
  by_cases hlt : x < 0
  · simp only [hlt, if_true, List.cons_append, List.append_assoc, List.singleton_append,
      List.nil_append]
    rw [hneg, habs, hm]
    have hmneg : (m : ℚ) < 0 := by
      rw [hm] at hlt
      have : (m : ℚ) / 100 < 0 := hlt
      by_contra hcon
      push_neg at hcon
      have : (0 : ℚ) ≤ (m : ℚ) / 100 := div_nonneg hcon (by norm_num)
      linarith
    rw [abs_of_neg hmneg]
    congr 2
    ring
  · simp only [hlt, if_false, List.cons_append, List.append_assoc, List.singleton_append,
      List.nil_append]
    rw [hpos, habs, hm]
    have hmnn : (0 : ℚ) ≤ (m : ℚ) := by
      rw [hm] at hlt
      push_neg at hlt
      by_contra hcon
      push_neg at hcon
      have : (m : ℚ) / 100 < 0 := div_neg_of_neg_of_pos hcon (by norm_num)
      linarith
    rw [abs_of_nonneg hmnn]

/-! ## The line of a record -/

theorem printInt_chars (n : Int) : ∀ c ∈ printInt n, isdigit c = true ∨ c.val = 45 := by
  have hd := natDigits_isdigit (n.natAbs + 1) n.natAbs
  intro c hc
  unfold printInt at hc
  split at hc
  · rcases List.mem_cons.1 hc with h | h
    · right
      rw [h]
    · exact Or.inl (hd c h)
  · exact Or.inl (hd c hc)

theorem printFixed2_chars (x : ℚ) :
    ∀ c ∈ printFixed2 x, isdigit c = true ∨ c.val = 45 ∨ c.val = 46 := by
  intro c hc
  have key : ∀ k : Nat, ∀ a ∈ natDigits (k / 100 + 1) (k / 100) []
      ++ [(⟨46, by decide⟩ : CChar), digitChar (k % 100 / 10), digitChar (k % 10)],
      isdigit a = true ∨ a.val = 45 ∨ a.val = 46 := by
    intro k a ha
    rcases List.mem_append.1 ha with h | h
    · exact Or.inl (natDigits_isdigit _ _ a h)
    · simp only [List.mem_cons, List.mem_singleton, List.mem_nil_iff, or_false] at h
      rcases h with h | h | h
      · right; right
        rw [h]
      · rw [h]
        exact Or.inl (isdigit_digitChar _)
      · rw [h]
        exact Or.inl (isdigit_digitChar _)
  unfold printFixed2 at hc
  simp only at hc
  split at hc
  · rcases List.mem_cons.1 hc with h | h
    · right; left
      rw [h]
    · exact key _ c h
  · exact key _ c hc

theorem not_sep_of_digit_like (c : CChar)
    (h : isdigit c = true ∨ c.val = 45 ∨ c.val = 46) : c.val ≠ 44 ∧ c.val ≠ 10 := by
  rcases h with h | h | h
  · simp only [isdigit, Bool.and_eq_true, decide_eq_true_eq] at h
    omega
  · omega
  · omega

theorem payloadText_no_newline (b : Boat) (hwf : WellFormedPayload b)
    (htag : b.type = BoatType.TRAILER → ∀ c ∈ b.info.trailerTag, c.val ≠ 10) :
    ∀ c ∈ payloadText b, c.val ≠ 10 := by
  obtain ⟨hc, _⟩ := hwf
  unfold PayloadAsSpecified at hc
  intro c hcm
  unfold payloadText at hcm
  cases hb : b.type with
  | SLIP =>
    rw [hb] at hcm
    exact (not_sep_of_digit_like c ((printInt_chars _ c hcm).imp id Or.inl)).2
  | LAND =>
    rw [hb] at hcm hc
    simp only at hcm hc
    have hpos : 0 < b.info.bayLetter := by omega
    simp only [hpos, dite_true, List.mem_singleton] at hcm
    rw [hcm]
    simp only
    omega
  | TRAILER =>
    rw [hb] at hcm
    exact htag hb c hcm
  | STORAGE =>
    rw [hb] at hcm
    exact (not_sep_of_digit_like c ((printInt_chars _ c hcm).imp id Or.inl)).2
  | NO_PLACE =>
    rw [hb] at hcm
    simp at hcm

theorem saveLine_eq (b : Boat) (hwf : WellFormedPayload b) (hk : b.type ≠ BoatType.NO_PLACE) :
    saveLine b = bytes (lineText b) ++ [10] := by
  obtain ⟨hfp, _, _⟩ := fprintInfo_payloadText b hwf hk
  unfold saveLine lineText
  rw [hfp]
  simp [bytes, comma]
  rfl

theorem lineText_fits (b : Boat) (h : WellFormedRecord b) : FitsBuffer (lineText b) := by
  obtain ⟨⟨hk, _, _, hwf, _, _⟩, hname, htag, hlen⟩ := h
  refine ⟨?_, ?_⟩
  · rw [saveLine_eq b hwf hk] at hlen
    simp only [bytes, List.length_append, List.length_map, List.length_singleton] at hlen
    omega
  · intro c hc
    unfold lineText at hc
    have hcomma : comma.val ≠ 10 := by decide
    have hty : ∀ a ∈ getBoatTypeStr b.type, a.val ≠ 10 := by
      cases b.type <;> decide
    simp only [List.mem_append, List.mem_cons] at hc
    rcases hc with h | h | h | h | h | h | h | h | h
    · exact hname c h
    · rw [h]; exact hcomma
    · exact (not_sep_of_digit_like c (printFixed2_chars _ c h)).2
    · rw [h]; exact hcomma
    · exact hty c h
    · rw [h]; exact hcomma
    · exact payloadText_no_newline b hwf htag c h
    · rw [h]; exact hcomma
    · exact (not_sep_of_digit_like c (printFixed2_chars _ c h)).2

/-- The call of `sscanf` when all five conversions succeed. -/
theorem sscanfBoat_full (line name s1 s2 s3 s4 ty s5 s6 tag s7 s8 rest : CString)
    (length owed : ℚ) (boat : Boat) (type0 : CString)
    (h1 : scanSet line = some (name, s1)) (h2 : scanComma s1 = some s2)
    (h3 : scanFloat s2 = some (length, s3)) (h4 : scanComma s3 = some s4)
    (h5 : scanSet s4 = some (ty, s5)) (h6 : scanComma s5 = some s6)
    (h7 : scanSet s6 = some (tag, s7)) (h8 : scanComma s7 = some s8)
    (h9 : scanFloat s8 = some (owed, rest)) :
    sscanfBoat line boat type0
      = ({ name := name, length := length, type := boat.type,
           info := { boat.info with trailerTag := tag }, amountOwed := owed }, ty) := by
  unfold sscanfBoat
  simp only [h1, h2, h3, h4, h5, h6, h7, h8, h9]

theorem setInfo_keeps (boat : Boat) :
    (setInfo boat).name = boat.name ∧ (setInfo boat).length = boat.length ∧
      (setInfo boat).amountOwed = boat.amountOwed := by
  unfold setInfo
  cases boat.type with
  | SLIP =>
    simp only
    split <;> exact ⟨rfl, rfl, rfl⟩
  | LAND => exact ⟨rfl, rfl, rfl⟩
  | TRAILER => exact ⟨rfl, rfl, rfl⟩
  | STORAGE =>
    simp only
    split <;> exact ⟨rfl, rfl, rfl⟩
  | NO_PLACE => exact ⟨rfl, rfl, rfl⟩

/-- Reading the line of a well-formed record gives back its name, length,
location and amount owed. -/
theorem readBoat_lineText (fresh : Boat) (type0 : CString) (b : Boat)
    (h : WellFormedRecord b) :
    (readBoat fresh type0 (lineText b ++ [newline])).fields = b.fields := by
  obtain ⟨⟨hk, hne, hcomma, hwf, hlen2, howed2⟩, _, _, _⟩ := h
  obtain ⟨htne, htc⟩ := getBoatTypeStr_field b.type
  obtain ⟨_, hpne, hpc⟩ := fprintInfo_payloadText b hwf hk
  have hline : lineText b ++ [newline]
      = b.name ++ comma :: (printFixed2 b.length ++ comma :: (getBoatTypeStr b.type
          ++ comma :: (payloadText b ++ comma :: (printFixed2 b.amountOwed ++ newline :: [])))) := by
    simp [lineText]
  have hcd : isdigit comma = false := by decide
  have hnd : isdigit newline = false := by decide
  have hfull := sscanfBoat_full (lineText b ++ [newline]) b.name _ _ _ _ (getBoatTypeStr b.type)
    _ _ (payloadText b) _ _ [newline] b.length b.amountOwed fresh type0
    (by rw [hline]; exact scanSet_field b.name _ hne hcomma)
    (scanComma_comma _)
    (scanFloat_printFixed2 b.length hlen2 comma _ hcd (by decide) (by decide))
    (scanComma_comma _)
    (scanSet_field (getBoatTypeStr b.type) _ htne htc)
    (scanComma_comma _)
    (scanSet_field (payloadText b) _ hpne hpc)
    (scanComma_comma _)
    (scanFloat_printFixed2 b.amountOwed howed2 newline [] hnd (by decide) (by decide))
  have hrb : readBoat fresh type0 (lineText b ++ [newline])
      = setInfo { (sscanfBoat (lineText b ++ [newline]) fresh type0).1 with
          type := getBoatType (sscanfBoat (lineText b ++ [newline]) fresh type0).2 } := rfl
  rw [hrb, hfull, getBoatType_getBoatTypeStr]
  have hs := setInfo_payloadText b
    { name := b.name, length := b.length, type := b.type,
      info := { fresh.info with trailerTag := payloadText b }, amountOwed := b.amountOwed }
    hwf rfl rfl hk
  have hkeep := setInfo_keeps
    { name := b.name, length := b.length, type := b.type,
      info := { fresh.info with trailerTag := payloadText b }, amountOwed := b.amountOwed }
  simp only [Boat.fields, hs.2, hkeep.1, hkeep.2.1, hkeep.2.2]

/-! ## Save, then load -/

theorem saveLoop_eq (boats : List (Option Boat))
    (h : ∀ b, some b ∈ boats → WellFormedRecord b) :
    saveLoop boats = fileOfLines ((liveBoats boats).map lineText) := by
  induction boats with
  | nil => rfl
  | cons x rest ih =>
    have hrest : ∀ b, some b ∈ rest → WellFormedRecord b :=
      fun b hb => h b (List.mem_cons_of_mem _ hb)
    cases x with
    | none => simpa [saveLoop, liveBoats_none] using ih hrest
    | some a =>
      obtain ⟨⟨hk, _, _, hwf, _, _⟩, _⟩ := h a (List.mem_cons_self _ _)
      rw [saveLoop, liveBoats_some, List.map_cons, fileOfLines, ih hrest,
        saveLine_eq a hwf hk, List.append_assoc]
      rfl

theorem recordsOfLines_fields (fresh : Nat → Boat) (type : Nat → CString) (index : Nat)
    (records : List Boat) (h : ∀ b ∈ records, WellFormedRecord b) :
    (recordsOfLines fresh type index (records.map lineText)).map Boat.fields
      = records.map Boat.fields := by
  induction records generalizing index with
  | nil => rfl
  | cons b rest ih =>
    simp only [List.map_cons, recordsOfLines,
      readBoat_lineText (fresh index) (type index) b (h b (List.mem_cons_self _ _)),
      ih (index + 1) (fun b' hb' => h b' (List.mem_cons_of_mem _ hb'))]

/-- C11, as amended. For a store of at most `MAX_BOATS` live records that are all
well-formed (a known kind, a name that is not empty and has neither comma nor
newline, a well-formed payload with no newline in a trailer tag, exact
two-decimal length and amount owed, a line that fits the buffer), loading what
`saveData` wrote gives a store whose live records have, one by one in slot
order, the name, length, kind, payload and amount owed of the records saved;
they stand in the first slots. -/
theorem save_then_load (fresh : Nat → Boat) (type : Nat → CString) (boats : List (Option Boat))
    (hcap : liveCount boats ≤ MAX_BOATS)
    (hwf : ∀ b, some b ∈ boats → WellFormedRecord b) :
    ∃ loaded, loadData fresh type (saveData true boats) emptyStore = some loaded ∧
      (liveBoats loaded).map Boat.fields = (liveBoats boats).map Boat.fields ∧
      loaded = (liveBoats loaded).map some
        ++ List.replicate (MAX_BOATS - liveCount boats) none := by
  have hlive : ∀ b ∈ liveBoats boats, WellFormedRecord b :=
    fun b hb => hwf b ((mem_liveBoats b boats).1 hb)
  have hfits : ∀ l ∈ (liveBoats boats).map lineText, FitsBuffer l := by
    intro l hl
    obtain ⟨b, hb, hbl⟩ := List.mem_map.1 hl
    rw [← hbl]
    exact lineText_fits b (hlive b hb)
  have hlen : ((liveBoats boats).map lineText).length = liveCount boats := by
    rw [List.length_map]
    rfl
  have hload := loadData_fileOfLines fresh type _ hfits
  rw [List.take_of_length_le (by rw [hlen]; exact hcap), hlen, Nat.min_eq_left hcap] at hload
  have hsave : saveData true boats = some (fileOfLines ((liveBoats boats).map lineText)) := by
    simp [saveData, saveLoop_eq boats hwf]
  refine ⟨_, by rw [hsave]; exact hload, ?_, ?_⟩
  · rw [liveBoats_map_some_append]
    exact recordsOfLines_fields fresh type 0 _ hlive
  · rw [liveBoats_map_some_append]

theorem twoDecimal_of_int (n : Int) : TwoDecimal (n : ℚ) :=
  ⟨n * 100, by push_cast; field_simp⟩

theorem recordAsSpecified_newlineStore :
    ∀ b, some b ∈ newlineStore → RecordAsSpecified b := by
  intro b hb
  have hb' : b ∈ liveBoats newlineStore := (mem_liveBoats b _).2 hb
  have hl : liveBoats newlineStore = [{ bob 100 with name := cstr "Bob\n" }] := rfl
  rw [hl, List.mem_singleton] at hb'
  subst hb'
  refine ⟨by decide, by decide, by decide, ⟨?_, ?_⟩, ?_, ?_⟩
  · simp [PayloadAsSpecified, bob]
  · intro h
    simp [bob] at h
  · exact twoDecimal_of_int 20
  · exact twoDecimal_of_int 100

/-- C11, refuted as stated: a record whose name is not empty and has no comma,
but ends with a newline, is saved as two lines; of one live record whose length
and amount owed are exact two-decimal values, loading makes two, and their
fields are not those of the record saved. -/
theorem save_then_load_newline :
    (∀ b, some b ∈ newlineStore → RecordAsSpecified b) ∧
      liveCount newlineStore = 1 ∧
      (loadData (fun _ => emptyTagBoat) (fun _ => []) (saveData true newlineStore)
          emptyStore).map liveCount = some 2 ∧
      (loadData (fun _ => emptyTagBoat) (fun _ => []) (saveData true newlineStore)
          emptyStore).map (fun loaded => (liveBoats loaded).map Boat.fields)
        ≠ some ((liveBoats newlineStore).map Boat.fields) := by
  refine ⟨recordAsSpecified_newlineStore, by decide, ?_, ?_⟩
  · with_unfolding_all decide
  · with_unfolding_all decide

theorem wellFormed_fourKindsStore : ∀ b, some b ∈ fourKindsStore → WellFormedRecord b := by
  intro b hb
  have hb' : b ∈ liveBoats fourKindsStore := (mem_liveBoats b _).2 hb
  have hl : liveBoats fourKindsStore
      = [bob 100,
         { name := cstr "Sea Witch", length := 61 / 2, type := BoatType.LAND,
           info := { slipNum := 0, bayLetter := 81, trailerTag := [], storageNumber := 0 },
           amountOwed := 0 },
         { name := cstr "Carl", length := 12, type := BoatType.TRAILER,
           info := { slipNum := 0, bayLetter := 0, trailerTag := cstr "XY12",
                     storageNumber := 0 },
           amountOwed := 1003 / 4 },
         { name := cstr "alice", length := 8, type := BoatType.STORAGE,
           info := { slipNum := 0, bayLetter := 0, trailerTag := [], storageNumber := 44 },
           amountOwed := -5 }] := rfl
  rw [hl] at hb'
  simp only [List.mem_cons, List.mem_singleton, List.mem_nil_iff, or_false] at hb'
  rcases hb' with h | h | h | h
  · subst h
    refine ⟨⟨by decide, by decide, by decide, ⟨by simp [PayloadAsSpecified, bob], ?_⟩,
      twoDecimal_of_int 20, twoDecimal_of_int 100⟩, by decide, ?_, ?_⟩
    · intro h; simp [bob] at h
    · intro h; simp [bob] at h
    · with_unfolding_all decide
  · subst h
    refine ⟨⟨by decide, by decide, by decide, ⟨by simp [PayloadAsSpecified], ?_⟩,
      ⟨3050, by norm_num⟩, twoDecimal_of_int 0⟩, by decide, ?_, ?_⟩
    · intro h; simp at h
    · intro h; simp at h
    · with_unfolding_all decide
  · subst h
    refine ⟨⟨by decide, by decide, by decide, ⟨?_, ?_⟩,
      twoDecimal_of_int 12, ⟨25075, by norm_num⟩⟩, by decide, ?_, ?_⟩
    · exact ⟨by decide, by decide⟩
    · intro _; decide
    · intro _; decide
    · with_unfolding_all decide
  · subst h
    refine ⟨⟨by decide, by decide, by decide, ⟨by simp [PayloadAsSpecified], ?_⟩,
      twoDecimal_of_int 8, twoDecimal_of_int (-5)⟩, by decide, ?_, ?_⟩
    · intro h; simp at h
    · intro h; simp at h
    · with_unfolding_all decide

/-- C11 as amended, at a store with a record of each of the four known kinds. -/
theorem save_then_load_witness :
    liveCount fourKindsStore ≤ MAX_BOATS ∧
      (∀ b, some b ∈ fourKindsStore → WellFormedRecord b) ∧
      (loadData (fun _ => emptyTagBoat) (fun _ => []) (saveData true fourKindsStore)
          emptyStore).map (fun loaded => (liveBoats loaded).map Boat.fields)
        = some ((liveBoats fourKindsStore).map Boat.fields) := by
  refine ⟨by decide, wellFormed_fourKindsStore, ?_⟩
  obtain ⟨loaded, h1, h2, _⟩ := save_then_load (fun _ => emptyTagBoat) (fun _ => [])
    fourKindsStore (by decide) wellFormed_fourKindsStore
  rw [h1, Option.map_some', h2]

theorem fitsBuffer_replicate (n : Nat) :
    ∀ l ∈ List.replicate n (cstr "Bob,20.00,slip,7,100.00"), FitsBuffer l := by
  intro l hl
  rw [List.eq_of_mem_replicate hl]
  exact ⟨by decide, by decide⟩

/-- C13, at a file of 125 equal lines: 120 records are loaded. -/
theorem loadData_at_most_max_witness :
    (∀ l ∈ List.replicate 125 (cstr "Bob,20.00,slip,7,100.00"), FitsBuffer l) ∧
      (loadData (fun _ => emptyTagBoat) (fun _ => [])
          (some (fileOfLines (List.replicate 125 (cstr "Bob,20.00,slip,7,100.00"))))
          emptyStore).map liveCount = some 120 := by
  refine ⟨fitsBuffer_replicate 125, ?_⟩
  obtain ⟨loaded, h1, _, h3, _⟩ := loadData_at_most_max (fun _ => emptyTagBoat) (fun _ => [])
    (List.replicate 125 (cstr "Bob,20.00,slip,7,100.00")) (fitsBuffer_replicate 125)
  rw [h1, Option.map_some', h3]
  simp

end BoatManagement
